import Mathlib

/-!
# Shallow embedding of `EsdfOccFiestaIntegrator` (voxblox, FIESTA ESDF integrator)

This file embeds the incremental ESDF update engine of
`src/voxblox/src/integrator/esdf_occ_fiesta_integrator.cc` and proves the
frozen claims about it.

Modelling conventions, fixed once for the whole file:

* A `GlobalIndex` is a triple of (mathematical) integers; the source uses
  Eigen 64-bit integer vectors and no arithmetic here can overflow 64 bits
  for the coordinate magnitudes the integrator admits (all coordinates are
  bounded by the `UNDEF` sentinel).
* The `UNDEF` sentinel comes from the integrator's header, which is not part
  of the sources; per the spec, `getUpdateRange` initialises
  `update_range_min_` to `(UNDEF,UNDEF,UNDEF)` and `update_range_max_` to
  `(-UNDEF,-UNDEF,-UNDEF)` and shrinks them with min/max, i.e. `UNDEF`
  behaves as plus infinity.  We model it as the large positive constant
  `UNDEFI`.  As in the source, only the first component of an index is
  compared against `UNDEF` (`isUndef`).
* The voxel `distance` field is a float in the source; every value it ever
  holds is of the form `s * voxel_size * sqrt(n)` with `s ∈ {+1,-1}` and
  `n : ℕ` (a squared voxel-lattice Euclidean norm), or the configured
  defaults.  All comparisons performed by the integrator are of the form
  `temp_dist < |distance|` or `|distance| > 0`, which in exact real
  arithmetic coincide with the corresponding comparisons of squared
  magnitudes.  We therefore represent a distance by a sign flag `distNeg`
  together with its squared magnitude `distSq` in voxel units, and the
  configured `default_distance_m` / `max_behind_surface_m` by their squared
  magnitudes in voxel units (`defaultSq`, `maxBehindSq`); the positive
  factor `voxel_size` drops out of every comparison.  `distance < 0` means
  `distNeg = true ∧ 0 < distSq`.
* The ESDF layer is modelled as an association list from global indices to
  voxels (`EsdfState`); a missing entry is the default (unobserved) voxel.
  Every pointer dereference of the source is translated as a fresh lookup
  at the corresponding program point, so pointer aliasing (e.g.
  `insertIntoList(cur_vox, cur_vox)`) is reproduced exactly.
* The bucketed priority queue type lives outside the sources.  Modelled
  from the spec: spec section 4.3 fixes `push`/`front`/`pop`/`empty` and
  leaves the order within a bucket unspecified with FIFO acceptable, with
  the bucket count `num_buckets` a configuration parameter; we model the
  `num_buckets = 1` instance, in which the queue is exactly a FIFO list of
  indices (the pushed key is used only for bucket selection and is dropped).
* `Neighborhood24` lives outside the sources.  The update functions take
  the neighbourhood as a function parameter `nbrsF`; the concrete
  `neighborhood24` below is modelled from the spec ("the 24-neighborhood"):
  the 24 offsets of Manhattan norm at most 2.
* Block allocation is out of scope per the spec; `setLocalRange`'s
  allocation loop is modelled by the list of block indices it would
  allocate (`allocatedBlocks`).
-/

namespace Voxblox

/-- A global voxel index: a triple of signed integers. -/
structure GIdx where
  x : Int
  y : Int
  z : Int
deriving DecidableEq, Repr

/-- Modelled from the spec: the `UNDEF` sentinel constant from the
integrator's header (not in the sources).  `getUpdateRange` uses it as plus
infinity when initialising the update range, so it is a large positive
integer; its exact magnitude is irrelevant as long as it dominates every
coordinate in play. -/
def UNDEFI : Int := 100000000

/-- The all-`UNDEF` index `GlobalIndex(UNDEF, UNDEF, UNDEF)`. -/
def undefIdx : GIdx := ⟨UNDEFI, UNDEFI, UNDEFI⟩

/-- The source tests only the first component against `UNDEF`
(`idx(0) != UNDEF`). -/
def isUndef (i : GIdx) : Bool := i.x == UNDEFI

/-- Occupancy voxel fields read by the integrator. -/
structure OccupancyVoxel where
  observed : Bool := false
  occupied : Bool := false
  behind   : Bool := false
deriving DecidableEq, Repr

/-- ESDF voxel.  `distNeg`/`distSq` encode the signed float `distance` as
explained in the header comment. -/
structure EsdfVoxel where
  observed : Bool := false
  behind   : Bool := false
  distNeg  : Bool := false
  distSq   : Nat  := 0
  cocIdx   : GIdx := undefIdx
  headIdx  : GIdx := undefIdx
  prevIdx  : GIdx := undefIdx
  nextIdx  : GIdx := undefIdx
  selfIdx  : GIdx := undefIdx
deriving DecidableEq, Repr

/-- The default (never-touched) voxel returned when a global index has no
entry in the layer. -/
def defaultVoxel : EsdfVoxel := {}

/-- The ESDF layer: association list from global index to voxel; lookups of
absent indices yield `defaultVoxel`. -/
abbrev EsdfState := List (GIdx × EsdfVoxel)

/-- The occupancy layer (read-only during a cycle). -/
abbrev OccState := List (GIdx × OccupancyVoxel)

/-- Voxel lookup (`esdf_layer_->getVoxelPtrByGlobalIndex`). -/
def getVox (st : EsdfState) (i : GIdx) : EsdfVoxel :=
  match st.find? (fun p => p.1 = i) with
  | some p => p.2
  | none => defaultVoxel

/-- Occupancy lookup (`occ_layer_->getVoxelPtrByGlobalIndex`). -/
def getOcc (occ : OccState) (i : GIdx) : OccupancyVoxel :=
  match occ.find? (fun p => p.1 = i) with
  | some p => p.2
  | none => {}

/-- Voxel store: a single field-assignment through a voxel pointer. -/
def setVox (st : EsdfState) (i : GIdx) (v : EsdfVoxel) : EsdfState :=
  (i, v) :: st

theorem getVox_setVox_self (st : EsdfState) (i : GIdx) (v : EsdfVoxel) :
    getVox (setVox st i v) i = v := by
  simp [getVox, setVox, List.find?]

theorem getVox_setVox_ne (st : EsdfState) (i j : GIdx) (v : EsdfVoxel)
    (h : j ≠ i) : getVox (setVox st i v) j = getVox st j := by
  have h' : i ≠ j := Ne.symm h
  simp [getVox, setVox, List.find?, h']

theorem getVox_setVox (st : EsdfState) (i j : GIdx) (v : EsdfVoxel) :
    getVox (setVox st i v) j = if j = i then v else getVox st j := by
  by_cases h : j = i
  · subst h; simp [getVox_setVox_self]
  · simp [h, getVox_setVox_ne st i j v h]

/-- Squared Euclidean lattice distance between two global indices.  The
source's `dist(a, b) = ((b - a).cast<float>()).norm() * esdf_voxel_size_`;
see the header comment for why squared magnitudes are a faithful
representation. -/
def distSqN (a b : GIdx) : Nat :=
  ((b.x - a.x) ^ 2 + (b.y - a.y) ^ 2 + (b.z - a.z) ^ 2).toNat

theorem distSqN_eq_zero_iff (a b : GIdx) : distSqN a b = 0 ↔ a = b := by
  constructor
  · intro h
    simp only [distSqN] at h
    have hx : (0:Int) ≤ (b.x - a.x) ^ 2 := sq_nonneg _
    have hy : (0:Int) ≤ (b.y - a.y) ^ 2 := sq_nonneg _
    have hz : (0:Int) ≤ (b.z - a.z) ^ 2 := sq_nonneg _
    have hx0 : (b.x - a.x) ^ 2 = 0 := by omega
    have hy0 : (b.y - a.y) ^ 2 = 0 := by omega
    have hz0 : (b.z - a.z) ^ 2 = 0 := by omega
    have ex : b.x = a.x := sub_eq_zero.mp ((pow_eq_zero_iff two_ne_zero).mp hx0)
    have ey : b.y = a.y := sub_eq_zero.mp ((pow_eq_zero_iff two_ne_zero).mp hy0)
    have ez : b.z = a.z := sub_eq_zero.mp ((pow_eq_zero_iff two_ne_zero).mp hz0)
    cases a; cases b; simp_all
  · rintro rfl
    simp [distSqN]

/-- Integrator configuration (spec section 6).  `defaultSq` and
`maxBehindSq` are `default_distance_m` and `max_behind_surface_m` as squared
magnitudes in voxel units; `off` is `range_boundary_offset`. -/
structure Config where
  defaultSq   : Nat
  maxBehindSq : Nat
  patchOn     : Bool
  earlyBreak  : Bool
  off         : GIdx
deriving Repr

/-- Axis-aligned working range `[range_min_, range_max_]`. -/
structure Range where
  rmin : GIdx
  rmax : GIdx
deriving DecidableEq, Repr

/-- `EsdfOccFiestaIntegrator::voxInRange`. -/
def voxInRange (r : Range) (i : GIdx) : Bool :=
  r.rmin.x ≤ i.x && i.x ≤ r.rmax.x &&
  (r.rmin.y ≤ i.y && i.y ≤ r.rmax.y) &&
  (r.rmin.z ≤ i.z && i.z ≤ r.rmax.z)

/-- One componentwise min step of `getUpdateRange`. -/
def expandMin (m i : GIdx) : GIdx := ⟨min i.x m.x, min i.y m.y, min i.z m.z⟩

/-- One componentwise max step of `getUpdateRange`. -/
def expandMax (m i : GIdx) : GIdx := ⟨max i.x m.x, max i.y m.y, max i.z m.z⟩

/-- `EsdfOccFiestaIntegrator::getUpdateRange`: fold min/max over the insert
list and then the delete list, starting from `(UNDEF, -UNDEF)`. -/
def getUpdateRange (ins del : List GIdx) : GIdx × GIdx :=
  (ins ++ del).foldl
    (fun mm i => (expandMin mm.1 i, expandMax mm.2 i))
    (⟨UNDEFI, UNDEFI, UNDEFI⟩, ⟨-UNDEFI, -UNDEFI, -UNDEFI⟩)

/-- First half of `setLocalRange`: inflate the update range by
`config_.range_boundary_offset` on each side. -/
def localRange (umin umax off : GIdx) : Range :=
  ⟨⟨umin.x - off.x, umin.y - off.y, umin.z - off.z⟩,
   ⟨umax.x + off.x, umax.y + off.y, umax.z + off.z⟩⟩

/-- The block-range computation of `setLocalRange`:
`block_range(i) = range(i) / esdf_voxels_per_side_` with C-style truncating
integer division (`Int.tdiv`), as the source performs it. -/
def blockRangeMin (r : Range) (vps : Int) : GIdx :=
  ⟨Int.tdiv r.rmin.x vps, Int.tdiv r.rmin.y vps, Int.tdiv r.rmin.z vps⟩

/-- See `blockRangeMin`. -/
def blockRangeMax (r : Range) (vps : Int) : GIdx :=
  ⟨Int.tdiv r.rmax.x vps, Int.tdiv r.rmax.y vps, Int.tdiv r.rmax.z vps⟩

/-- The block-range computation the spec prescribes instead: floored
division (`Int.fdiv`), rounding toward negative infinity.  Kept separate so
it can be compared with the source's `blockRangeMin`. -/
def blockRangeMinFloor (r : Range) (vps : Int) : GIdx :=
  ⟨Int.fdiv r.rmin.x vps, Int.fdiv r.rmin.y vps, Int.fdiv r.rmin.z vps⟩

/-- See `blockRangeMinFloor`. -/
def blockRangeMaxFloor (r : Range) (vps : Int) : GIdx :=
  ⟨Int.fdiv r.rmax.x vps, Int.fdiv r.rmax.y vps, Int.fdiv r.rmax.z vps⟩

/-- The ascending list `lo, lo+1, ..., hi` (empty when `hi < lo`), matching
a C++ `for (x = lo; x <= hi; x++)` loop. -/
def intsFromTo (lo hi : Int) : List Int :=
  (List.range (hi + 1 - lo).toNat).map (fun k => lo + (k : Int))

/-- The block indices allocated by `setLocalRange`'s triple loop. -/
def allocatedBlocks (bmin bmax : GIdx) : List GIdx :=
  (intsFromTo bmin.x bmax.x).flatMap (fun x =>
    (intsFromTo bmin.y bmax.y).flatMap (fun y =>
      (intsFromTo bmin.z bmax.z).map (fun z => (⟨x, y, z⟩ : GIdx))))

/-- Modelled from the spec: the `Neighborhood24` offsets (the helper is not
in the sources; spec: "the 24-neighborhood"): all offsets of Manhattan norm
1 or 2. -/
def n24offsets : List GIdx :=
  [⟨1,0,0⟩, ⟨-1,0,0⟩, ⟨0,1,0⟩, ⟨0,-1,0⟩, ⟨0,0,1⟩, ⟨0,0,-1⟩,
   ⟨2,0,0⟩, ⟨-2,0,0⟩, ⟨0,2,0⟩, ⟨0,-2,0⟩, ⟨0,0,2⟩, ⟨0,0,-2⟩,
   ⟨1,1,0⟩, ⟨1,-1,0⟩, ⟨-1,1,0⟩, ⟨-1,-1,0⟩,
   ⟨1,0,1⟩, ⟨1,0,-1⟩, ⟨-1,0,1⟩, ⟨-1,0,-1⟩,
   ⟨0,1,1⟩, ⟨0,1,-1⟩, ⟨0,-1,1⟩, ⟨0,-1,-1⟩]

/-- `Neighborhood24::getFromGlobalIndex`. -/
def neighborhood24 (i : GIdx) : List GIdx :=
  n24offsets.map (fun o => ⟨i.x + o.x, i.y + o.y, i.z + o.z⟩)

theorem not_mem_neighborhood24_self (i : GIdx) : i ∉ neighborhood24 i := by
  intro h
  simp only [neighborhood24, List.mem_map] at h
  obtain ⟨o, ho, he⟩ := h
  obtain ⟨ix, iy, iz⟩ := i
  simp only [GIdx.mk.injEq] at he
  obtain ⟨h1, h2, h3⟩ := he
  have hox : o.x = 0 := by omega
  have hoy : o.y = 0 := by omega
  have hoz : o.z = 0 := by omega
  fin_cases ho <;> simp_all

/-! ## Doubly-linked dependents-list operations

Each C++ field assignment through a voxel pointer becomes one helper call;
every pointer dereference re-reads the state at its program point, which
reproduces aliasing exactly. -/

/-- `vox->next_idx = x`. -/
def setNext (st : EsdfState) (i : GIdx) (x : GIdx) : EsdfState :=
  setVox st i { getVox st i with nextIdx := x }

/-- `vox->prev_idx = x`. -/
def setPrev (st : EsdfState) (i : GIdx) (x : GIdx) : EsdfState :=
  setVox st i { getVox st i with prevIdx := x }

/-- `vox->head_idx = x`. -/
def setHead (st : EsdfState) (i : GIdx) (x : GIdx) : EsdfState :=
  setVox st i { getVox st i with headIdx := x }

/-- `EsdfOccFiestaIntegrator::deleteFromList(occ_vox, cur_vox)` with
`occ_vox` the voxel at `occI` and `cur_vox` the voxel at `curI`. -/
def deleteFromList (st : EsdfState) (occI curI : GIdx) : EsdfState :=
  let st1 :=
    if isUndef (getVox st curI).prevIdx = false then
      -- prev_vox->next_idx = cur_vox->next_idx
      setNext st (getVox st curI).prevIdx (getVox st curI).nextIdx
    else
      -- occ_vox->head_idx = cur_vox->next_idx
      setHead st occI (getVox st curI).nextIdx
  let st2 :=
    if isUndef (getVox st1 curI).nextIdx = false then
      -- next_vox->prev_idx = cur_vox->prev_idx
      setPrev st1 (getVox st1 curI).nextIdx (getVox st1 curI).prevIdx
    else st1
  let st3 := setNext st2 curI undefIdx
  setPrev st3 curI undefIdx

/-- `EsdfOccFiestaIntegrator::insertIntoList(occ_vox, cur_vox)` with
`occ_vox` the voxel at `occI` and `cur_vox` the voxel at `curI`. -/
def insertIntoList (st : EsdfState) (occI curI : GIdx) : EsdfState :=
  if isUndef (getVox st occI).headIdx = true then
    -- occ_vox->head_idx = cur_vox->self_idx
    setHead st occI (getVox st curI).selfIdx
  else
    -- head_occ_vox->prev_idx = cur_vox->self_idx
    let st1 := setPrev st (getVox st occI).headIdx (getVox st curI).selfIdx
    -- cur_vox->next_idx = occ_vox->head_idx
    let st2 := setNext st1 curI (getVox st1 occI).headIdx
    -- occ_vox->head_idx = cur_vox->self_idx
    setHead st2 occI (getVox st2 curI).selfIdx

/-! ## Core-field frame lemmas

The list operations touch only link fields (`headIdx`, `prevIdx`,
`nextIdx`); all other voxel fields — the "core" — are untouched, at every
index. -/

/-- The non-link fields of a voxel. -/
def core (v : EsdfVoxel) : Bool × Bool × Bool × Nat × GIdx × GIdx :=
  (v.observed, v.behind, v.distNeg, v.distSq, v.cocIdx, v.selfIdx)

theorem core_setNext (st : EsdfState) (i x j : GIdx) :
    core (getVox (setNext st i x) j) = core (getVox st j) := by
  simp only [setNext, getVox_setVox]
  split <;> simp_all [core]

theorem core_setPrev (st : EsdfState) (i x j : GIdx) :
    core (getVox (setPrev st i x) j) = core (getVox st j) := by
  simp only [setPrev, getVox_setVox]
  split <;> simp_all [core]

theorem core_setHead (st : EsdfState) (i x j : GIdx) :
    core (getVox (setHead st i x) j) = core (getVox st j) := by
  simp only [setHead, getVox_setVox]
  split <;> simp_all [core]

theorem core_deleteFromList (st : EsdfState) (occI curI j : GIdx) :
    core (getVox (deleteFromList st occI curI) j) = core (getVox st j) := by
  unfold deleteFromList
  dsimp only
  split_ifs <;> simp [core_setNext, core_setPrev, core_setHead]

theorem core_insertIntoList (st : EsdfState) (occI curI j : GIdx) :
    core (getVox (insertIntoList st occI curI) j) = core (getVox st j) := by
  unfold insertIntoList
  dsimp only
  split_ifs <;> simp [core_setNext, core_setPrev, core_setHead]

theorem distSq_of_core_eq {v w : EsdfVoxel} (h : core v = core w) :
    v.distSq = w.distSq := by
  simp only [core, Prod.mk.injEq] at h
  exact h.2.2.2.1

theorem cocIdx_of_core_eq {v w : EsdfVoxel} (h : core v = core w) :
    v.cocIdx = w.cocIdx := by
  simp only [core, Prod.mk.injEq] at h
  exact h.2.2.2.2.1

theorem distNeg_of_core_eq {v w : EsdfVoxel} (h : core v = core w) :
    v.distNeg = w.distNeg := by
  simp only [core, Prod.mk.injEq] at h
  exact h.2.2.1

theorem behind_of_core_eq {v w : EsdfVoxel} (h : core v = core w) :
    v.behind = w.behind := by
  simp only [core, Prod.mk.injEq] at h
  exact h.2.1

theorem observed_of_core_eq {v w : EsdfVoxel} (h : core v = core w) :
    v.observed = w.observed := by
  simp only [core, Prod.mk.injEq] at h
  exact h.1

theorem selfIdx_of_core_eq {v w : EsdfVoxel} (h : core v = core w) :
    v.selfIdx = w.selfIdx := by
  simp only [core, Prod.mk.injEq] at h
  exact h.2.2.2.2.2

/-! ## Algorithm 2: ESDF updating initialization (seeding) -/

/-- The FIFO queue of pending global indices (see the header comment for
the queue model).  `push(idx, d)` appends; `front`/`pop` take the head. -/
abbrev Queue := List GIdx

/-- One round of the insert-seeding loop (source lines 214-230): unlink
from a previous obstacle's list if any, set `distance = 0` and
`coc_idx = self`, insert into the voxel's own list, push. -/
def insertSeedOne (stq : EsdfState × Queue) (idx : GIdx) : EsdfState × Queue :=
  let st := stq.1
  let st :=
    if isUndef (getVox st idx).cocIdx = false then
      deleteFromList st (getVox st idx).cocIdx idx
    else st
  let st := setVox st idx
    { getVox st idx with distNeg := false, distSq := 0, cocIdx := idx }
  let st := insertIntoList st idx idx
  (st, stq.2 ++ [idx])

/-- Drain the insert list. -/
def insertSeedAll (st : EsdfState) (q : Queue) (ins : List GIdx) :
    EsdfState × Queue :=
  ins.foldl insertSeedOne (st, q)

/-- The neighbour scan of the delete-seeding loop (source lines 256-280),
over an explicit neighbour list.  For each in-range neighbour that is
observed, has a set `coc_idx`, and whose closest-obstacle voxel is still
occupied: adopt the neighbour's `coc_idx` if it strictly improves
`|distance|` of the voxel at `tIdx`; when `config_.early_break` is set the
scan stops right after such a candidate, whether or not it improved. -/
def deleteScan (cfg : Config) (occ : OccState) (r : Range) (tIdx : GIdx) :
    EsdfState → List GIdx → EsdfState
  | st, [] => st
  | st, n :: rest =>
    if voxInRange r n = true then
      let nv := getVox st n
      let nCoc := nv.cocIdx
      if nv.observed = true && isUndef nCoc = false then
        if (getOcc occ nCoc).occupied = true then
          let tempSq := distSqN nCoc tIdx
          let tv := getVox st tIdx
          let st :=
            if tempSq < tv.distSq then
              setVox st tIdx
                { tv with distNeg := false, distSq := tempSq, cocIdx := nCoc }
            else st
          if cfg.earlyBreak then st else deleteScan cfg occ r tIdx st rest
        else deleteScan cfg occ r tIdx st rest
      else deleteScan cfg occ r tIdx st rest
    else deleteScan cfg occ r tIdx st rest

/-- The tail of the delete-seeding body (source lines 283-295): cache the
traversal link (`next_vox_idx = temp_vox->prev_idx`), clear the member's
links, and — when a closest obstacle was adopted — apply the `behind`
sign, push, and insert into the new obstacle's list. -/
def deleteSeedTail (st2 : EsdfState) (q : Queue) (tIdx : GIdx) :
    EsdfState × Queue × GIdx :=
  let next := (getVox st2 tIdx).prevIdx
  let st := setVox st2 tIdx
    { getVox st2 tIdx with nextIdx := undefIdx, prevIdx := undefIdx }
  let tv := getVox st tIdx
  if isUndef tv.cocIdx = false then
    -- temp_vox->distance = temp_vox->behind ? -distance : distance
    let st := setVox st tIdx
      { tv with distNeg := if tv.behind then !tv.distNeg else tv.distNeg }
    let q := q ++ [tIdx]
    let st := insertIntoList st tv.cocIdx tIdx
    (st, q, next)
  else (st, q, next)

/-- The body of the delete-seeding traversal for one list member
(source lines 244-295). -/
def deleteSeedMember (cfg : Config) (occ : OccState) (r : Range)
    (nbrsF : GIdx → List GIdx) (st : EsdfState) (q : Queue) (tIdx : GIdx) :
    EsdfState × Queue × GIdx :=
  -- temp_vox->coc_idx = UNDEF
  let st := setVox st tIdx { getVox st tIdx with cocIdx := undefIdx }
  let st :=
    if voxInRange r tIdx = true then
      -- temp_vox->distance = config_.default_distance_m
      let st := setVox st tIdx
        { getVox st tIdx with distNeg := false, distSq := cfg.defaultSq }
      deleteScan cfg occ r tIdx st (nbrsF tIdx)
    else st
  deleteSeedTail st q tIdx

/-- The delete-seeding traversal (source lines 242-296): walk the deleted
obstacle's dependents list, following the link cached by
`deleteSeedMember`.  The fuel only serves to make the recursion structural;
the theorems below supply enough of it.  Also returns the list of visited
members. -/
def deleteSeedLoop (cfg : Config) (occ : OccState) (r : Range)
    (nbrsF : GIdx → List GIdx) :
    Nat → EsdfState → Queue → GIdx → EsdfState × Queue × List GIdx
  | 0, st, q, _ => (st, q, [])
  | fuel + 1, st, q, tIdx =>
    if isUndef tIdx = true then (st, q, [])
    else
      let r1 := deleteSeedMember cfg occ r nbrsF st q tIdx
      let r2 := deleteSeedLoop cfg occ r nbrsF fuel r1.1 r1.2.1 r1.2.2
      (r2.1, r2.2.1, tIdx :: r2.2.2)

/-- One round of the delete-seeding loop (source lines 232-298): traverse
the dependents list starting at the deleted obstacle itself, then clear the
obstacle's `head_idx`. -/
def deleteSeedObstacle (cfg : Config) (occ : OccState) (r : Range)
    (nbrsF : GIdx → List GIdx) (fuel : Nat) (st : EsdfState) (q : Queue)
    (dIdx : GIdx) : EsdfState × Queue × List GIdx :=
  let r1 := deleteSeedLoop cfg occ r nbrsF fuel st q dIdx
  -- cur_vox->head_idx = UNDEF
  (setVox r1.1 dIdx { getVox r1.1 dIdx with headIdx := undefIdx },
   r1.2.1, r1.2.2)

/-- Drain the delete list. -/
def deleteSeedAll (cfg : Config) (occ : OccState) (r : Range)
    (nbrsF : GIdx → List GIdx) (fuel : Nat) (st : EsdfState) (q : Queue)
    (del : List GIdx) : EsdfState × Queue :=
  del.foldl (fun stq d =>
    let r1 := deleteSeedObstacle cfg occ r nbrsF fuel stq.1 stq.2 d
    (r1.1, r1.2.1)) (st, q)

/-! ## Algorithm 1 with Algorithm 3: wavefront propagation with patch -/

/-- The patch scan of Algorithm 3 (source lines 330-345): for each in-range
observed neighbour with a set `coc_idx`, re-home `cur` to the neighbour's
closest obstacle when that strictly improves `|cur.distance|`; the running
flag records whether anything changed. -/
def patchScan (r : Range) (curIdx : GIdx) :
    EsdfState → Bool → List GIdx → EsdfState × Bool
  | st, flag, [] => (st, flag)
  | st, flag, n :: rest =>
    if voxInRange r n = true then
      let nv := getVox st n
      if nv.observed = true && isUndef nv.cocIdx = false then
        let tempSq := distSqN nv.cocIdx curIdx
        let cv := getVox st curIdx
        if tempSq < cv.distSq then
          patchScan r curIdx
            (setVox st curIdx
              { cv with distNeg := false, distSq := tempSq, cocIdx := nv.cocIdx })
            true rest
        else patchScan r curIdx st flag rest
      else patchScan r curIdx st flag rest
    else patchScan r curIdx st flag rest

/-- The distance write of an improving relaxation (source line 371):
`nbr_vox->distance = nbr_vox->behind ? -temp_dist : temp_dist` with
`temp_dist = dist(cur_vox->coc_idx, nbr_vox_idx)`. -/
def relaxWrite (st : EsdfState) (curIdx n : GIdx) : EsdfState :=
  setVox st n
    { getVox st n with
      distNeg := (getVox st n).behind
      distSq := distSqN (getVox st curIdx).cocIdx n }

/-- The unlink step of an improving relaxation (source lines 372-377):
remove the neighbour from its prior obstacle's list when it had one. -/
def relaxUnlink (st : EsdfState) (n : GIdx) : EsdfState :=
  if isUndef (getVox st n).cocIdx = false then
    deleteFromList st (getVox st n).cocIdx n
  else st

/-- The full effect of one improving relaxation on the state
(source lines 370-380, minus the push). -/
def relaxUpdate (st : EsdfState) (curIdx cocIdx0 n : GIdx) : EsdfState :=
  let s1 := relaxWrite st curIdx n
  let s2 := relaxUnlink s1 n
  -- nbr_vox->coc_idx = cur_vox->coc_idx
  let s3 := setVox s2 n { getVox s2 n with cocIdx := (getVox s2 curIdx).cocIdx }
  insertIntoList s3 cocIdx0 n

/-- One neighbour of the relaxation loop (source lines 361-384).
`cocIdx0` is the index behind the `coc_vox` pointer fetched at the pop
(source lines 314-315), the target of the final `insertIntoList`. -/
def relaxOne (r : Range) (curIdx cocIdx0 : GIdx)
    (stq : EsdfState × Queue) (n : GIdx) : EsdfState × Queue :=
  let st := stq.1
  if voxInRange r n = true then
    let nv := getVox st n
    if nv.observed = true && 0 < nv.distSq then
      let tempSq := distSqN (getVox st curIdx).cocIdx n
      if tempSq < nv.distSq then
        (relaxUpdate st curIdx cocIdx0 n, stq.2 ++ [n])
      else stq
    else stq
  else stq

/-- The relaxation loop over the 24-neighbourhood. -/
def relaxPass (r : Range) (curIdx cocIdx0 : GIdx) (st : EsdfState)
    (nbrs : List GIdx) : EsdfState × Queue :=
  nbrs.foldl (relaxOne r curIdx cocIdx0) (st, [])

/-- The tail of the patch branch (source lines 346-356): apply the
`behind` sign to the patched voxel, remove it from its prior obstacle's
list (`coc_vox` was fetched at the pop, before the patch), re-fetch
`coc_vox` from the new `coc_idx`, and insert the voxel into the new
obstacle's list. -/
def patchApply (st1 : EsdfState) (curIdx cocIdx0 : GIdx) : EsdfState :=
  -- cur_vox->distance = cur_vox->behind ? -distance : distance
  let cv := getVox st1 curIdx
  let st2 := setVox st1 curIdx
    { cv with distNeg := if cv.behind then !cv.distNeg else cv.distNeg }
  let st3 := deleteFromList st2 cocIdx0 curIdx
  insertIntoList st3 (getVox st3 curIdx).cocIdx curIdx

/-- The body of one pop of the propagation loop (source lines 308-384).
Returns the updated state and the list of indices pushed during this pop.
When the patch changed `cur`, it is re-pushed and the relaxation is
skipped (`continue`). -/
def propStep (cfg : Config) (r : Range) (nbrsF : GIdx → List GIdx)
    (st : EsdfState) (curIdx : GIdx) : EsdfState × Queue :=
  let cocIdx0 := (getVox st curIdx).cocIdx
  let nbrs := nbrsF curIdx
  if cfg.patchOn then
    let pr := patchScan r curIdx st false nbrs
    if pr.2 then (patchApply pr.1 curIdx cocIdx0, [curIdx])
    else relaxPass r curIdx cocIdx0 pr.1 nbrs
  else relaxPass r curIdx cocIdx0 st nbrs

/-- The propagation loop (source lines 307-385): pop until the queue is
empty.  Fuel-indexed; `none` means the fuel ran out, `some (st, [])` that
the loop drained the queue and returned. -/
def propLoop (cfg : Config) (r : Range) (nbrsF : GIdx → List GIdx) :
    Nat → EsdfState → Queue → Option (EsdfState × Queue)
  | 0, _, _ => none
  | _ + 1, st, [] => some (st, [])
  | fuel + 1, st, cur :: rest =>
    let pr := propStep cfg r nbrsF st cur
    propLoop cfg r nbrsF fuel pr.1 (rest ++ pr.2)

/-! ## The update cycle -/

/-- The two seeding phases of `updateESDF` run in source order. -/
def seedPhases (cfg : Config) (occ : OccState) (r : Range)
    (nbrsF : GIdx → List GIdx) (dfuel : Nat) (st : EsdfState)
    (ins del : List GIdx) : EsdfState × Queue :=
  let sq := insertSeedAll st [] ins
  deleteSeedAll cfg occ r nbrsF dfuel sq.1 sq.2 del

/-- One update cycle as driven by `updateFromOccBlocks`: compute the update
range, set the local range (returning the blocks its loop allocates), then
`updateESDF`.  Returns `none` when the propagation fuel runs out, else the
final ESDF state and the allocated block list. -/
def runCycle (cfg : Config) (occ : OccState) (nbrsF : GIdx → List GIdx)
    (vps : Int) (dfuel pfuel : Nat) (st : EsdfState) (ins del : List GIdx) :
    Option (EsdfState × List GIdx) :=
  let mm := getUpdateRange ins del
  let r := localRange mm.1 mm.2 cfg.off
  let blocks := allocatedBlocks (blockRangeMin r vps) (blockRangeMax r vps)
  let sq := seedPhases cfg occ r nbrsF dfuel st ins del
  match propLoop cfg r nbrsF pfuel sq.1 sq.2 with
  | some pr => some (pr.1, blocks)
  | none => none

/-! ## The delete-seed neighbour scan as claim C2 reads it

A second scan, following the claim's words instead of the source: with
`early_break` the scan stops only after a candidate whose adoption strictly
improved `|distance|`.  Used solely to compare against the source's
`deleteScan`. -/

/-- Claim C2's reading of the early-break scan (break only after an
improving candidate); compare with `deleteScan`. -/
def deleteScanSpecC2 (cfg : Config) (occ : OccState) (r : Range) (tIdx : GIdx) :
    EsdfState → List GIdx → EsdfState
  | st, [] => st
  | st, n :: rest =>
    if voxInRange r n = true then
      let nv := getVox st n
      let nCoc := nv.cocIdx
      if nv.observed = true && isUndef nCoc = false then
        if (getOcc occ nCoc).occupied = true then
          let tempSq := distSqN nCoc tIdx
          let tv := getVox st tIdx
          if tempSq < tv.distSq then
            let st := setVox st tIdx
              { tv with distNeg := false, distSq := tempSq, cocIdx := nCoc }
            if cfg.earlyBreak then st else deleteScanSpecC2 cfg occ r tIdx st rest
          else deleteScanSpecC2 cfg occ r tIdx st rest
        else deleteScanSpecC2 cfg occ r tIdx st rest
      else deleteScanSpecC2 cfg occ r tIdx st rest
    else deleteScanSpecC2 cfg occ r tIdx st rest

/-- A neighbour "qualifies" in the delete-seed scan when it is in range,
observed, has a set `coc_idx`, and its closest obstacle is still occupied —
exactly the guards inside which the source's `early_break` fires. -/
def scanQualifies (occ : OccState) (r : Range) (st : EsdfState) (n : GIdx) :
    Bool :=
  voxInRange r n && (getVox st n).observed && !(isUndef (getVox st n).cocIdx)
    && (getOcc occ (getVox st n).cocIdx).occupied

/-! ### Concrete instances for the C2 counterexample -/

/-- C2 counterexample: the member being re-seeded. -/
def c2t : GIdx := ⟨0, 0, 0⟩

/-- C2 counterexample: first-scanned neighbour; its obstacle is occupied
but too far to improve. -/
def c2n1 : GIdx := ⟨1, 0, 0⟩

/-- C2 counterexample: second-scanned neighbour; its obstacle would
strictly improve the member. -/
def c2n2 : GIdx := ⟨0, 1, 0⟩

/-- C2 counterexample: the distant occupied obstacle (squared distance 484
from `c2t`, not better than the default 400). -/
def c2B1 : GIdx := ⟨22, 0, 0⟩

/-- C2 counterexample: the close occupied obstacle (squared distance 2 from
`c2t`). -/
def c2B2 : GIdx := ⟨1, 1, 0⟩

/-- C2 counterexample configuration: `early_break` on. -/
def c2cfg : Config :=
  { defaultSq := 400, maxBehindSq := 100, patchOn := true,
    earlyBreak := true, off := ⟨1, 1, 1⟩ }

/-- C2 counterexample working range. -/
def c2r : Range := ⟨⟨-2, -2, -2⟩, ⟨2, 2, 2⟩⟩

/-- C2 counterexample occupancy: both obstacles still occupied. -/
def c2occ : OccState :=
  [(c2B1, { observed := true, occupied := true }),
   (c2B2, { observed := true, occupied := true })]

/-- C2 counterexample ESDF state: the member mid-delete-seeding (coc just
cleared, distance at default), two observed neighbours pointing at the two
obstacles. -/
def c2st : EsdfState :=
  [(c2t, { observed := true, selfIdx := c2t, distSq := 400 }),
   (c2n1, { observed := true, selfIdx := c2n1, cocIdx := c2B1, distSq := 441 }),
   (c2n2, { observed := true, selfIdx := c2n2, cocIdx := c2B2, distSq := 2 })]

/-- C2, counterexample: with `early_break` set, the source's scan breaks at
the first qualifying candidate `c2n1` even though adopting it would not
improve the member (484 ≥ 400), so the member keeps `coc_idx = UNDEF`;
under the claim's reading (break only after an improving candidate, as in
`deleteScanSpecC2`) the scan would go on and adopt `c2B2`.  Hence the claim
is false of the source. -/
theorem c2_counterexample :
    (getVox (deleteScan c2cfg c2occ c2r c2t c2st [c2n1, c2n2]) c2t).cocIdx
        = undefIdx ∧
    (getVox (deleteScanSpecC2 c2cfg c2occ c2r c2t c2st [c2n1, c2n2]) c2t).cocIdx
        = c2B2 ∧
    deleteScan c2cfg c2occ c2r c2t c2st [c2n1, c2n2]
        ≠ deleteScanSpecC2 c2cfg c2occ c2r c2t c2st [c2n1, c2n2] := by
  decide

/-- A non-qualifying neighbour leaves the delete-seed scan's state
untouched and the scan moves on. -/
theorem deleteScan_skip (cfg : Config) (occ : OccState) (r : Range)
    (tIdx : GIdx) (st : EsdfState) (m : GIdx) (l : List GIdx)
    (hm : scanQualifies occ r st m = false) :
    deleteScan cfg occ r tIdx st (m :: l) = deleteScan cfg occ r tIdx st l := by
  rcases Bool.eq_false_or_eq_true (voxInRange r m) with hv | hv
  · rcases Bool.eq_false_or_eq_true ((getVox st m).observed) with ho | ho
    · rcases Bool.eq_false_or_eq_true (isUndef (getVox st m).cocIdx) with
        hu | hu
      · simp [deleteScan, hv, ho, hu]
      · have hocc : (getOcc occ (getVox st m).cocIdx).occupied = false := by
          simp [scanQualifies, hv, ho, hu] at hm
          exact hm
        simp [deleteScan, hv, ho, hu, hocc]
    · simp [deleteScan, hv, ho]
  · simp [deleteScan, hv]

/-- With `early_break` set, the first qualifying neighbour ends the
delete-seed scan: the tail after it is irrelevant. -/
theorem deleteScan_break (cfg : Config) (occ : OccState) (r : Range)
    (tIdx : GIdx) (st : EsdfState) (n : GIdx) (l : List GIdx)
    (heb : cfg.earlyBreak = true)
    (hn : scanQualifies occ r st n = true) :
    deleteScan cfg occ r tIdx st (n :: l)
      = deleteScan cfg occ r tIdx st [n] := by
  simp only [scanQualifies, Bool.and_eq_true, Bool.not_eq_true,
    Bool.not_eq_true'] at hn
  simp [deleteScan, hn.1.1.1, hn.1.1.2, hn.1.2, hn.2, heb]

/-- C2, amended: with `config.early_break` set, the delete-seed neighbour
scan stops at the first qualifying candidate — an observed in-range
neighbour whose `coc_idx` is set and refers to a still-occupied voxel —
whether or not adopting it improves the member: every neighbour after the
first qualifying one is ignored. -/
theorem c2_amended (cfg : Config) (occ : OccState) (r : Range)
    (tIdx : GIdx) (st : EsdfState) (pre post : List GIdx) (n : GIdx)
    (heb : cfg.earlyBreak = true)
    (hpre : ∀ m ∈ pre, scanQualifies occ r st m = false)
    (hn : scanQualifies occ r st n = true) :
    deleteScan cfg occ r tIdx st (pre ++ n :: post)
      = deleteScan cfg occ r tIdx st (pre ++ [n]) := by
  induction pre with
  | nil =>
    simp only [List.nil_append]
    exact deleteScan_break cfg occ r tIdx st n post heb hn
  | cons m pre ih =>
    have hm := hpre m (List.mem_cons_self m pre)
    have hpre' : ∀ m' ∈ pre, scanQualifies occ r st m' = false :=
      fun m' hm' => hpre m' (List.mem_cons_of_mem m hm')
    simp only [List.cons_append]
    rw [deleteScan_skip cfg occ r tIdx st m _ hm,
      deleteScan_skip cfg occ r tIdx st m _ hm]
    exact ih hpre'

/-- C2 amended, witness instance: in the counterexample state the scan over
`[c2n1, c2n2]` equals the scan over `[c2n1]` alone. -/
theorem c2_amended_witness :
    deleteScan c2cfg c2occ c2r c2t c2st [c2n1, c2n2]
      = deleteScan c2cfg c2occ c2r c2t c2st [c2n1] :=
  c2_amended c2cfg c2occ c2r c2t c2st [] [c2n2] c2n1 (by decide)
    (by intro m hm; cases hm) (by decide)

/-! ### C7: `insertIntoList` -/

/-- C7 counterexample: the obstacle voxel. -/
def c7o : GIdx := ⟨0, 0, 0⟩

/-- C7 counterexample: the obstacle's current list head. -/
def c7h : GIdx := ⟨2, 0, 0⟩

/-- C7 counterexample: the member being inserted; its `prev_idx` is stale
(not `UNDEF`). -/
def c7m : GIdx := ⟨1, 0, 0⟩

/-- C7 counterexample: the stale index sitting in the member's
`prev_idx`. -/
def c7p : GIdx := ⟨9, 9, 9⟩

/-- C7 counterexample state. -/
def c7st : EsdfState :=
  [(c7o, { observed := true, selfIdx := c7o, headIdx := c7h }),
   (c7h, { observed := true, selfIdx := c7h }),
   (c7m, { observed := true, selfIdx := c7m, prevIdx := c7p })]

/-- C7, counterexample: `insertIntoList` never writes the member's
`prev_idx`, so inserting a member whose `prev_idx` is not `UNDEF` in front
of a non-`UNDEF` head makes that member the new head while its `prev_idx`
stays `(9,9,9) ≠ UNDEF` — contradicting the claim that the member's
`prev_idx` is set to `UNDEF` and that the new head always has
`prev_idx = UNDEF`. -/
theorem c7_counterexample :
    (getVox (insertIntoList c7st c7o c7m) c7o).headIdx = c7m ∧
    (getVox (insertIntoList c7st c7o c7m) c7m).prevIdx = c7p ∧
    (getVox (insertIntoList c7st c7o c7m) c7m).prevIdx ≠ undefIdx := by
  decide

/-- C7, amended: `insertIntoList` implements: if the obstacle's `head_idx`
is `UNDEF`, set it to the member's `self_idx` and leave the member's links
untouched; otherwise set the old head's `prev_idx` to the member's
`self_idx`, the member's `next_idx` to the old head, and the obstacle's
`head_idx` to the member's `self_idx` — the member's `prev_idx` is left
unchanged (not written), so the new head has `prev_idx = UNDEF` only when
the member's `prev_idx` already was `UNDEF` (which the call sites
guarantee by clearing links beforehand). -/
theorem c7_amended (st : EsdfState) (o m : GIdx) :
    (isUndef (getVox st o).headIdx = true →
      insertIntoList st o m
        = setVox st o { getVox st o with headIdx := (getVox st m).selfIdx }) ∧
    (isUndef (getVox st o).headIdx = false → (getVox st o).headIdx ≠ m →
      (getVox (insertIntoList st o m) o).headIdx = (getVox st m).selfIdx ∧
      (getVox (insertIntoList st o m) ((getVox st o).headIdx)).prevIdx
          = (getVox st m).selfIdx ∧
      (getVox (insertIntoList st o m) m).nextIdx = (getVox st o).headIdx ∧
      (getVox (insertIntoList st o m) m).prevIdx = (getVox st m).prevIdx) := by
  constructor
  · intro hu
    simp [insertIntoList, hu, setHead]
  · intro hu hhm
    simp only [insertIntoList, hu, Bool.false_eq_true, if_false, setHead,
      setNext, setPrev]
    rw [show (getVox st m).selfIdx = (getVox st m).selfIdx from rfl]
    generalize hS : (getVox st m).selfIdx = S at hhm ⊢
    generalize hH : (getVox st o).headIdx = H at hhm ⊢
    have f1 : getVox (setVox st H { getVox st H with prevIdx := S }) m
        = getVox st m := getVox_setVox_ne _ _ _ _ (Ne.symm hhm)
    have f2 : (getVox (setVox st H { getVox st H with prevIdx := S }) o).headIdx
        = H := by
      by_cases hoH : o = H
      · subst hoH
        rw [getVox_setVox_self]
        exact hH
      · rw [getVox_setVox_ne _ _ _ _ hoH]
        exact hH
    refine ⟨?_, ?_, ?_, ?_⟩
    · rw [getVox_setVox_self]
      dsimp only
      rw [getVox_setVox_self]
      dsimp only
      rw [f1]
      exact hS
    · by_cases hoH : H = o
      · subst hoH
        rw [getVox_setVox_self]
        dsimp only
        rw [getVox_setVox_ne _ _ _ _ hhm]
        rw [getVox_setVox_self]
      · rw [getVox_setVox_ne _ _ _ _ hoH]
        rw [getVox_setVox_ne _ _ _ _ hhm]
        rw [getVox_setVox_self]
    · by_cases hmo : m = o
      · subst hmo
        rw [getVox_setVox_self]
        dsimp only
        rw [getVox_setVox_self]
        dsimp only
        exact f2
      · rw [getVox_setVox_ne _ _ _ _ hmo]
        rw [getVox_setVox_self]
        dsimp only
        exact f2
    · by_cases hmo : m = o
      · subst hmo
        rw [getVox_setVox_self]
        dsimp only
        rw [getVox_setVox_self]
        dsimp only
        rw [f1]
      · rw [getVox_setVox_ne _ _ _ _ hmo]
        rw [getVox_setVox_self]
        dsimp only
        rw [f1]


/-- C7 amended, witness instance: applying the characterisation at the
counterexample state's obstacle and a fresh member with cleared links. -/
theorem c7_amended_witness :
    (isUndef (getVox c7st c7o).headIdx = false) ∧
    ((getVox c7st c7o).headIdx ≠ c7m) ∧
    (getVox (insertIntoList c7st c7o c7m) c7o).headIdx
        = (getVox c7st c7m).selfIdx ∧
    (getVox (insertIntoList c7st c7o c7m) ((getVox c7st c7o).headIdx)).prevIdx
        = (getVox c7st c7m).selfIdx ∧
    (getVox (insertIntoList c7st c7o c7m) c7m).nextIdx
        = (getVox c7st c7o).headIdx ∧
    (getVox (insertIntoList c7st c7o c7m) c7m).prevIdx
        = (getVox c7st c7m).prevIdx :=
  ⟨by decide, by decide,
    (c7_amended c7st c7o c7m).2 (by decide) (by decide)⟩

/-! ### C1: block-range division in `setLocalRange` -/

/-- C1: evaluating the source's block-range computation at the claim's own
input.  Inserting `{(-5,-5,-5)}` with `range_boundary_offset = (1,1,1)`
inflates the range to `[-6,-4]` per axis; the source's C-style truncating
division by `voxels_per_side = 8` yields the block range `[0,0]^3`, so the
allocation loop allocates exactly block `(0,0,0)` and block `(-1,-1,-1)` is
never allocated — whereas the floored division that the claim (and the
spec) prescribe yields block `(-1,-1,-1)`.  The claim is right about the
intended behaviour and the code's truncating division is the slip (the
source line carries a `TODO: may have some issues here`). -/
theorem c1_truncating_division_misses_negative_block :
    blockRangeMin
        (localRange (getUpdateRange [⟨-5,-5,-5⟩] []).1
          (getUpdateRange [⟨-5,-5,-5⟩] []).2 ⟨1,1,1⟩) 8 = ⟨0,0,0⟩ ∧
    blockRangeMax
        (localRange (getUpdateRange [⟨-5,-5,-5⟩] []).1
          (getUpdateRange [⟨-5,-5,-5⟩] []).2 ⟨1,1,1⟩) 8 = ⟨0,0,0⟩ ∧
    allocatedBlocks
        (blockRangeMin
          (localRange (getUpdateRange [⟨-5,-5,-5⟩] []).1
            (getUpdateRange [⟨-5,-5,-5⟩] []).2 ⟨1,1,1⟩) 8)
        (blockRangeMax
          (localRange (getUpdateRange [⟨-5,-5,-5⟩] []).1
            (getUpdateRange [⟨-5,-5,-5⟩] []).2 ⟨1,1,1⟩) 8)
      = [⟨0,0,0⟩] ∧
    (⟨-1,-1,-1⟩ : GIdx) ∉
      allocatedBlocks
        (blockRangeMin
          (localRange (getUpdateRange [⟨-5,-5,-5⟩] []).1
            (getUpdateRange [⟨-5,-5,-5⟩] []).2 ⟨1,1,1⟩) 8)
        (blockRangeMax
          (localRange (getUpdateRange [⟨-5,-5,-5⟩] []).1
            (getUpdateRange [⟨-5,-5,-5⟩] []).2 ⟨1,1,1⟩) 8) ∧
    blockRangeMinFloor
        (localRange (getUpdateRange [⟨-5,-5,-5⟩] []).1
          (getUpdateRange [⟨-5,-5,-5⟩] []).2 ⟨1,1,1⟩) 8 = ⟨-1,-1,-1⟩ ∧
    blockRangeMaxFloor
        (localRange (getUpdateRange [⟨-5,-5,-5⟩] []).1
          (getUpdateRange [⟨-5,-5,-5⟩] []).2 ⟨1,1,1⟩) 8 = ⟨-1,-1,-1⟩ := by
  decide

/-! ### C3: a popped queue entry with `coc_idx = UNDEF` -/

/-- C3 failing input: the one voxel that is both inserted and deleted in the
same cycle. -/
def c3A : GIdx := ⟨0, 0, 0⟩

/-- C3 failing input configuration. -/
def c3cfg : Config :=
  { defaultSq := 400, maxBehindSq := 100, patchOn := true,
    earlyBreak := false, off := ⟨1, 1, 1⟩ }

/-- C3 failing input initial ESDF state: the voxel observed and at the
default distance, nothing else allocated. -/
def c3st : EsdfState :=
  [(c3A, { observed := true, selfIdx := c3A, distSq := 400 })]

/-- The working range the cycle computes for the C3 failing input. -/
def c3r : Range :=
  localRange (getUpdateRange [c3A] [c3A]).1 (getUpdateRange [c3A] [c3A]).2
    c3cfg.off

/-- C3: evaluating the seeding phases at the failing input
`insert_list = delete_list = {(0,0,0)}`.  The insert phase pushes `(0,0,0)`
with `coc_idx = self`; the delete phase then clears that voxel's `coc_idx`
to `UNDEF` (no neighbour can re-home it) but the queue entry remains.  The
first pop of the propagation loop therefore resolves
`coc = voxel_at(UNDEF)` — the very SEGFAULT the source comments on — so
the claimed safety property fails on the code. -/
theorem c3_popped_entry_has_undef_coc :
    (seedPhases c3cfg [] c3r neighborhood24 3 c3st [c3A] [c3A]).2 = [c3A] ∧
    isUndef
      (getVox (seedPhases c3cfg [] c3r neighborhood24 3 c3st [c3A] [c3A]).1
        c3A).cocIdx = true := by
  decide

/-! ### C9: an empty cycle is a no-op -/

theorem intsFromTo_nil (lo hi : Int) (h : hi < lo) : intsFromTo lo hi = [] := by
  unfold intsFromTo
  have h0 : (hi + 1 - lo).toNat = 0 := by omega
  rw [h0]
  rfl

theorem one_le_tdiv (a b : Int) (hb : 0 < b) (hba : b ≤ a) :
    1 ≤ Int.tdiv a b := by
  rw [Int.tdiv_eq_ediv (le_trans (le_of_lt hb) hba) (le_of_lt hb)]
  rw [Int.le_ediv_iff_mul_le hb]
  omega

/-- With empty insert and delete lists the update range stays at its
`(+UNDEF, -UNDEF)` initialisation, so the inflated range is empty: the
per-axis block interval is empty as soon as `voxels_per_side` and the
boundary offset are small against the `UNDEF` sentinel. -/
theorem emptyRange_axis_nil (vps o : Int) (hvps : 0 < vps)
    (hvo : vps + o ≤ UNDEFI) :
    intsFromTo (Int.tdiv (UNDEFI - o) vps) (Int.tdiv (-UNDEFI + o) vps)
      = [] := by
  have h1 : 1 ≤ Int.tdiv (UNDEFI - o) vps :=
    one_le_tdiv (UNDEFI - o) vps hvps (by omega)
  have h2 : Int.tdiv (-UNDEFI + o) vps = -(Int.tdiv (UNDEFI - o) vps) := by
    rw [show (-UNDEFI + o) = -(UNDEFI - o) by ring, Int.neg_tdiv]
  rw [h2]
  exact intsFromTo_nil _ _ (by omega)

/-- C9: running an update cycle with empty insert and delete lists is a
no-op.  The degenerate range computed from the empty lists makes the block
allocation loops allocate nothing, both seeding loops drain nothing, the
queue stays empty and the propagation loop returns at once: the ESDF state
is returned unchanged and the allocated block list is empty.  The only
proviso is the trivially-true one that `voxels_per_side` and the boundary
offset are positive yet tiny against the `UNDEF` sentinel. -/
theorem c9_empty_cycle_noop (cfg : Config) (occ : OccState)
    (nbrsF : GIdx → List GIdx) (vps : Int) (dfuel pfuel : Nat)
    (st : EsdfState) (hvps : 0 < vps)
    (hx2 : vps + cfg.off.x ≤ UNDEFI) :
    runCycle cfg occ nbrsF vps dfuel (pfuel + 1) st [] [] = some (st, []) := by
  have hg : getUpdateRange [] []
      = (⟨UNDEFI, UNDEFI, UNDEFI⟩, ⟨-UNDEFI, -UNDEFI, -UNDEFI⟩) := rfl
  simp only [runCycle, hg, localRange, blockRangeMin, blockRangeMax,
    seedPhases, insertSeedAll, deleteSeedAll, List.foldl, allocatedBlocks]
  rw [emptyRange_axis_nil vps cfg.off.x hvps hx2]
  simp [propLoop]

/-- C9, witness instance: an empty cycle at a concrete configuration and
state returns that state untouched with no blocks allocated. -/
theorem c9_witness :
    runCycle c3cfg [] neighborhood24 8 3 (1 + 1) c3st [] []
      = some (c3st, []) :=
  c9_empty_cycle_noop c3cfg [] neighborhood24 8 3 1 c3st (by decide)
    (by decide)

/-! ### C5: the delete-seeding traversal -/

/-- The prev-chain from a voxel: the exact sequence of members the source's
traversal visits, since the traversal starts at the deleted obstacle (the
tail of its own dependents list) and follows `prev_idx` toward the head.
`none` when the walk does not reach `UNDEF` within the fuel. -/
def walkPrev : Nat → EsdfState → GIdx → Option (List GIdx)
  | 0, _, _ => none
  | fuel + 1, st, i =>
    if isUndef i = true then some []
    else (walkPrev fuel st (getVox st i).prevIdx).map (i :: ·)

/-- The net effect of the delete-seeding body on one visited member when no
occupied voxel exists anywhere: `coc_idx` cleared, links cleared, and — for
in-range members — the distance re-seeded to the default. -/
def clearMember (cfg : Config) (r : Range) (i : GIdx) (v : EsdfVoxel) :
    EsdfVoxel :=
  if voxInRange r i = true then
    { v with
      cocIdx := undefIdx
      distNeg := false
      distSq := cfg.defaultSq
      prevIdx := undefIdx
      nextIdx := undefIdx }
  else
    { v with cocIdx := undefIdx, prevIdx := undefIdx, nextIdx := undefIdx }

/-- When every occupancy voxel is unoccupied, the delete-seed neighbour
scan adopts nothing and leaves the state untouched. -/
theorem deleteScan_unocc (cfg : Config) (occ : OccState) (r : Range)
    (tIdx : GIdx) (hocc : ∀ j, (getOcc occ j).occupied = false) :
    ∀ (l : List GIdx) (st : EsdfState), deleteScan cfg occ r tIdx st l = st := by
  intro l
  induction l with
  | nil => intro st; rfl
  | cons n rest ih =>
    intro st
    simp only [deleteScan, hocc, Bool.false_eq_true, if_false]
    split_ifs <;> exact ih st

/-- The delete-seeding body for one member, when no occupied voxel exists:
the queue is unchanged, the cached link is the member's original
`prev_idx`, and only the member's voxel changes — to `clearMember`. -/
theorem deleteSeedMember_unocc (cfg : Config) (occ : OccState) (r : Range)
    (nbrsF : GIdx → List GIdx) (st : EsdfState) (q : Queue) (t : GIdx)
    (hocc : ∀ j, (getOcc occ j).occupied = false) :
    (deleteSeedMember cfg occ r nbrsF st q t).2.1 = q ∧
    (deleteSeedMember cfg occ r nbrsF st q t).2.2 = (getVox st t).prevIdx ∧
    ∀ j, getVox (deleteSeedMember cfg occ r nbrsF st q t).1 j
      = if j = t then clearMember cfg r t (getVox st t) else getVox st j := by
  have hu : isUndef undefIdx = true := by decide
  unfold deleteSeedMember deleteSeedTail
  rcases Bool.eq_false_or_eq_true (voxInRange r t) with hv | hv
  · -- in range: distance re-seeded, scan a no-op
    simp only [hv, if_true, deleteScan_unocc cfg occ r t hocc,
      getVox_setVox_self]
    refine ⟨?_, ?_, ?_⟩
    · simp [hu]
    · simp [hu]
    · intro j
      by_cases hj : j = t
      · subst hj
        simp [hu, getVox_setVox_self, clearMember, hv]
      · simp [hu, getVox_setVox_ne _ _ _ _ hj, hj]
  · -- out of range: only coc and links cleared
    simp only [hv, Bool.false_eq_true, if_false, getVox_setVox_self]
    refine ⟨?_, ?_, ?_⟩
    · simp [hu]
    · simp [hu]
    · intro j
      by_cases hj : j = t
      · subst hj
        simp [hu, getVox_setVox_self, clearMember, hv]
      · simp [hu, getVox_setVox_ne _ _ _ _ hj, hj]

/-- The prev-walk only reads the voxels it visits, so it is stable under
state changes outside the chain. -/
theorem walkPrev_congr : ∀ (fuel : Nat) (st st1 : EsdfState) (i : GIdx)
    (c : List GIdx), walkPrev fuel st i = some c →
    (∀ j ∈ c, getVox st1 j = getVox st j) → walkPrev fuel st1 i = some c := by
  intro fuel
  induction fuel with
  | zero => intro st st1 i c h; cases h
  | succ fuel ih =>
    intro st st1 i c h hc
    rcases Bool.eq_false_or_eq_true (isUndef i) with hi | hi
    · -- the walk ends at once
      simp only [walkPrev, hi, if_true] at h ⊢
      exact h
    · -- the walk visits i
      simp only [walkPrev, hi, Bool.false_eq_true, if_false,
        Option.map_eq_some'] at h ⊢
      obtain ⟨c1, hc1, hrfl⟩ := h
      subst hrfl
      have hii : getVox st1 i = getVox st i :=
        hc i (List.mem_cons_self i c1)
      rw [hii]
      exact ⟨c1, ih st st1 _ c1 hc1
        (fun j hj => hc j (List.mem_cons_of_mem i hj)), rfl⟩

/-- The delete-seeding traversal under an all-unoccupied occupancy: it
visits exactly the prev-chain, pushes nothing, and clears exactly the
chain's members. -/
theorem deleteSeedLoop_unocc (cfg : Config) (occ : OccState) (r : Range)
    (nbrsF : GIdx → List GIdx)
    (hocc : ∀ j, (getOcc occ j).occupied = false) :
    ∀ (fuel : Nat) (st : EsdfState) (q : Queue) (t : GIdx)
      (chain : List GIdx), walkPrev fuel st t = some chain → chain.Nodup →
    (deleteSeedLoop cfg occ r nbrsF fuel st q t).2.1 = q ∧
    (deleteSeedLoop cfg occ r nbrsF fuel st q t).2.2 = chain ∧
    ∀ j, getVox (deleteSeedLoop cfg occ r nbrsF fuel st q t).1 j
      = if j ∈ chain then clearMember cfg r j (getVox st j)
        else getVox st j := by
  intro fuel
  induction fuel with
  | zero => intro st q t chain h; cases h
  | succ fuel ih =>
    intro st q t chain h hnd
    rcases Bool.eq_false_or_eq_true (isUndef t) with hi | hi
    · -- the walk ends at once: chain = []
      simp only [walkPrev, hi, if_true, Option.some.injEq] at h
      subst h
      simp only [deleteSeedLoop, hi, if_true]
      exact ⟨trivial, trivial, fun j => by simp⟩
    · -- the walk continues: chain = t :: c1
      simp only [walkPrev, hi, Bool.false_eq_true, if_false,
        Option.map_eq_some'] at h
      obtain ⟨c1, hc1, hrfl⟩ := h
      subst hrfl
      have hnd1 : c1.Nodup := (List.nodup_cons.mp hnd).2
      have htc : t ∉ c1 := (List.nodup_cons.mp hnd).1
      obtain ⟨hq1, hnext, hpt⟩ :=
        deleteSeedMember_unocc cfg occ r nbrsF st q t hocc
      simp only [deleteSeedLoop, hi, Bool.false_eq_true, if_false]
      have hwalk1 : walkPrev fuel
          (deleteSeedMember cfg occ r nbrsF st q t).1
          (deleteSeedMember cfg occ r nbrsF st q t).2.2 = some c1 := by
        rw [hnext]
        refine walkPrev_congr fuel st _ _ c1 hc1 ?_
        intro j hj
        have hjt : j ≠ t := fun hjt => htc (hjt ▸ hj)
        rw [hpt j, if_neg hjt]
      obtain ⟨ih1, ih2, ih3⟩ := ih
        (deleteSeedMember cfg occ r nbrsF st q t).1
        (deleteSeedMember cfg occ r nbrsF st q t).2.1
        (deleteSeedMember cfg occ r nbrsF st q t).2.2 c1 hwalk1 hnd1
      refine ⟨by rw [ih1, hq1], by rw [ih2], ?_⟩
      intro j
      rw [ih3 j]
      by_cases hjc : j ∈ c1
      · have hjt : j ≠ t := fun hjt => htc (hjt ▸ hjc)
        rw [hpt j, if_neg hjt, if_pos hjc,
          if_pos (List.mem_cons_of_mem t hjc)]
      · by_cases hjt : j = t
        · subst hjt
          rw [if_neg hjc, hpt j, if_pos rfl,
            if_pos (List.mem_cons_self j c1)]
        · rw [if_neg hjc, hpt j, if_neg hjt,
            if_neg (by simp [hjt, hjc])]

theorem clearMember_cocIdx (cfg : Config) (r : Range) (i : GIdx)
    (v : EsdfVoxel) : (clearMember cfg r i v).cocIdx = undefIdx := by
  unfold clearMember; split_ifs <;> rfl

theorem clearMember_prevIdx (cfg : Config) (r : Range) (i : GIdx)
    (v : EsdfVoxel) : (clearMember cfg r i v).prevIdx = undefIdx := by
  unfold clearMember; split_ifs <;> rfl

theorem clearMember_nextIdx (cfg : Config) (r : Range) (i : GIdx)
    (v : EsdfVoxel) : (clearMember cfg r i v).nextIdx = undefIdx := by
  unfold clearMember; split_ifs <;> rfl

theorem clearMember_inRange (cfg : Config) (r : Range) (i : GIdx)
    (v : EsdfVoxel) (h : voxInRange r i = true) :
    (clearMember cfg r i v).distSq = cfg.defaultSq ∧
    (clearMember cfg r i v).distNeg = false := by
  simp [clearMember, h]

/-- C5: seeding from a deletion visits every member of the deleted
obstacle's dependents list exactly once — the traversal follows the link
cached before the links are cleared, so it covers the whole (duplicate-free)
prev-chain from the obstacle.  Afterwards the former obstacle's `head_idx`
is `UNDEF`, every visited member's `coc_idx`, `prev_idx` and `next_idx` are
cleared, and — since no obstacle is in range (modelled as: no occupancy
voxel is occupied, the claim's "no other obstacle in range" scenario after
the only obstacle was deleted) — every in-range former member ends with
`coc_idx = UNDEF` and `distance = default_distance_m`, nothing is pushed,
and no other voxel changes. -/
theorem c5_delete_seeding (cfg : Config) (occ : OccState) (r : Range)
    (nbrsF : GIdx → List GIdx) (fuel : Nat) (st : EsdfState) (q : Queue)
    (d : GIdx) (chain : List GIdx)
    (hocc : ∀ j, (getOcc occ j).occupied = false)
    (hw : walkPrev fuel st d = some chain) (hnd : chain.Nodup)
    (hd : isUndef d = false) :
    (deleteSeedObstacle cfg occ r nbrsF fuel st q d).2.2 = chain ∧
    (deleteSeedObstacle cfg occ r nbrsF fuel st q d).2.1 = q ∧
    (getVox (deleteSeedObstacle cfg occ r nbrsF fuel st q d).1 d).headIdx
        = undefIdx ∧
    (∀ c ∈ chain,
      (getVox (deleteSeedObstacle cfg occ r nbrsF fuel st q d).1 c).cocIdx
          = undefIdx ∧
      (getVox (deleteSeedObstacle cfg occ r nbrsF fuel st q d).1 c).prevIdx
          = undefIdx ∧
      (getVox (deleteSeedObstacle cfg occ r nbrsF fuel st q d).1 c).nextIdx
          = undefIdx ∧
      (voxInRange r c = true →
        (getVox (deleteSeedObstacle cfg occ r nbrsF fuel st q d).1 c).distSq
            = cfg.defaultSq ∧
        (getVox (deleteSeedObstacle cfg occ r nbrsF fuel st q d).1 c).distNeg
            = false)) ∧
    (∀ j, j ∉ chain → j ≠ d →
      getVox (deleteSeedObstacle cfg occ r nbrsF fuel st q d).1 j
        = getVox st j) := by
  obtain ⟨hq, hvis, hpt⟩ :=
    deleteSeedLoop_unocc cfg occ r nbrsF hocc fuel st q d chain hw hnd
  have hchain : d ∈ chain := by
    cases fuel with
    | zero => cases hw
    | succ f =>
      simp only [walkPrev, hd, Bool.false_eq_true, if_false,
        Option.map_eq_some'] at hw
      obtain ⟨c1, _, hh⟩ := hw
      rw [← hh]
      exact List.mem_cons_self d c1
  simp only [deleteSeedObstacle]
  refine ⟨hvis, hq, ?_, ?_, ?_⟩
  · rw [getVox_setVox_self]
  · intro c hc
    by_cases hcd : c = d
    · subst hcd
      rw [getVox_setVox_self]
      dsimp only
      rw [hpt c, if_pos hc]
      exact ⟨clearMember_cocIdx cfg r c _, clearMember_prevIdx cfg r c _,
        clearMember_nextIdx cfg r c _,
        fun hv => clearMember_inRange cfg r c _ hv⟩
    · rw [getVox_setVox_ne _ _ _ _ hcd, hpt c, if_pos hc]
      exact ⟨clearMember_cocIdx cfg r c _, clearMember_prevIdx cfg r c _,
        clearMember_nextIdx cfg r c _,
        fun hv => clearMember_inRange cfg r c _ hv⟩
  · intro j hj hjd
    rw [getVox_setVox_ne _ _ _ _ hjd, hpt j, if_neg hj]

/-- C5 witness scenario: the deleted obstacle. -/
def c5d : GIdx := ⟨0, 0, 0⟩

/-- C5 witness scenario: the one dependent list member besides the obstacle
itself. -/
def c5m : GIdx := ⟨1, 0, 0⟩

/-- C5 witness scenario working range. -/
def c5r : Range := ⟨⟨-2, -2, -2⟩, ⟨2, 2, 2⟩⟩

/-- C5 witness scenario state: obstacle `c5d` (tail of its own list, with
`prev_idx` pointing at the member `c5m`, which is the head) and member
`c5m`. -/
def c5st : EsdfState :=
  [(c5d, { observed := true, selfIdx := c5d, cocIdx := c5d, distSq := 0,
           headIdx := c5m, prevIdx := c5m }),
   (c5m, { observed := true, selfIdx := c5m, cocIdx := c5d, distSq := 1,
           nextIdx := c5d })]

/-- C5, witness instance: deleting `c5d` visits exactly `[c5d, c5m]`,
pushes nothing, clears the head, and resets the in-range member to the
default distance with `coc_idx = UNDEF`. -/
theorem c5_witness :
    (deleteSeedObstacle c3cfg [] c5r neighborhood24 3 c5st [] c5d).2.2
        = [c5d, c5m] ∧
    (deleteSeedObstacle c3cfg [] c5r neighborhood24 3 c5st [] c5d).2.1 = [] ∧
    (getVox (deleteSeedObstacle c3cfg [] c5r neighborhood24 3 c5st [] c5d).1
        c5d).headIdx = undefIdx ∧
    (getVox (deleteSeedObstacle c3cfg [] c5r neighborhood24 3 c5st [] c5d).1
        c5m).cocIdx = undefIdx ∧
    (getVox (deleteSeedObstacle c3cfg [] c5r neighborhood24 3 c5st [] c5d).1
        c5m).distSq = c3cfg.defaultSq := by
  have h := c5_delete_seeding c3cfg [] c5r neighborhood24 3 c5st [] c5d
    [c5d, c5m] (fun j => rfl) (by decide) (by decide) (by decide)
  exact ⟨h.1, h.2.1, h.2.2.1,
    (h.2.2.2.1 c5m (by decide)).1,
    ((h.2.2.2.1 c5m (by decide)).2.2.2 (by decide)).1⟩

/-! ### The patch scan (Algorithm 3): characterisation lemmas -/

/-- A neighbour qualifies for the patch when it is in range, observed, and
has a set `coc_idx` (the patch does not re-check occupancy). -/
def patchQualifies (r : Range) (st : EsdfState) (n : GIdx) : Bool :=
  voxInRange r n && (getVox st n).observed && !(isUndef (getVox st n).cocIdx)

/-- The patch scan writes only the voxel being patched. -/
theorem patchScan_frame (r : Range) (curIdx : GIdx) :
    ∀ (l : List GIdx) (st : EsdfState) (flag : Bool) (j : GIdx), j ≠ curIdx →
    getVox (patchScan r curIdx st flag l).1 j = getVox st j := by
  intro l
  induction l with
  | nil => intro st flag j hj; rfl
  | cons n rest ih =>
    intro st flag j hj
    simp only [patchScan]
    split_ifs with h1 h2 h3
    · rw [ih _ _ _ hj, getVox_setVox_ne _ _ _ _ hj]
    · exact ih _ _ _ hj
    · exact ih _ _ _ hj
    · exact ih _ _ _ hj

/-- Once set, the change flag stays set. -/
theorem patchScan_mono (r : Range) (curIdx : GIdx) :
    ∀ (l : List GIdx) (st : EsdfState),
    (patchScan r curIdx st true l).2 = true := by
  intro l
  induction l with
  | nil => intro st; rfl
  | cons n rest ih =>
    intro st
    simp only [patchScan]
    split_ifs <;> exact ih _

/-- If the scan reports no change, nothing was written. -/
theorem patchScan_false (r : Range) (curIdx : GIdx) :
    ∀ (l : List GIdx) (st : EsdfState) (flag : Bool),
    (patchScan r curIdx st flag l).2 = false →
    flag = false ∧ (patchScan r curIdx st flag l).1 = st := by
  intro l
  induction l with
  | nil => intro st flag h; exact ⟨h, rfl⟩
  | cons n rest ih =>
    intro st flag h
    simp only [patchScan] at h ⊢
    split_ifs at h ⊢ with h1 h2 h3
    · rw [patchScan_mono] at h; cases h
    · exact ih _ _ h
    · exact ih _ _ h
    · exact ih _ _ h

/-- The change flag fires exactly when some neighbour qualifies and its
closest obstacle strictly improves on the entry distance of the patched
voxel (assuming, as for the real 24-neighbourhood, that the voxel is not
its own neighbour). -/
theorem patchScan_flag_iff (r : Range) (curIdx : GIdx) :
    ∀ (l : List GIdx) (st : EsdfState), curIdx ∉ l →
    ((patchScan r curIdx st false l).2 = true ↔
      ∃ n ∈ l, patchQualifies r st n = true ∧
        distSqN (getVox st n).cocIdx curIdx < (getVox st curIdx).distSq) := by
  intro l
  induction l with
  | nil => intro st h; simp [patchScan]
  | cons n rest ih =>
    intro st hc
    have hncur : n ≠ curIdx := by
      intro h; exact hc (h ▸ List.mem_cons_self n rest)
    have hcr : curIdx ∉ rest := fun h => hc (List.mem_cons_of_mem n h)
    simp only [patchScan]
    split_ifs with h1 h2 h3
    · -- qualifying and improving: flag set, witness is n
      refine iff_of_true (patchScan_mono r curIdx rest _) ?_
      refine ⟨n, List.mem_cons_self n rest, ?_, h3⟩
      simp only [Bool.and_eq_true, decide_eq_true_eq] at h2
      simp [patchQualifies, h1, h2.1, h2.2]
    · -- qualifying, not improving
      rw [ih st hcr]
      constructor
      · rintro ⟨m, hm, hq, himp⟩
        exact ⟨m, List.mem_cons_of_mem n hm, hq, himp⟩
      · rintro ⟨m, hm, hq, himp⟩
        rcases List.mem_cons.mp hm with rfl | hm'
        · exact absurd himp h3
        · exact ⟨m, hm', hq, himp⟩
    · -- observed/coc test fails
      rw [ih st hcr]
      constructor
      · rintro ⟨m, hm, hq, himp⟩
        exact ⟨m, List.mem_cons_of_mem n hm, hq, himp⟩
      · rintro ⟨m, hm, hq, himp⟩
        rcases List.mem_cons.mp hm with rfl | hm2
        · exfalso
          apply h2
          simp only [patchQualifies, Bool.and_eq_true,
            Bool.not_eq_true'] at hq
          simp only [Bool.and_eq_true, decide_eq_true_eq]
          exact ⟨hq.1.2, hq.2⟩
        · exact ⟨m, hm2, hq, himp⟩
    · -- out of range
      rw [ih st hcr]
      constructor
      · rintro ⟨m, hm, hq, himp⟩
        exact ⟨m, List.mem_cons_of_mem n hm, hq, himp⟩
      · rintro ⟨m, hm, hq, himp⟩
        rcases List.mem_cons.mp hm with rfl | hm2
        · exfalso
          apply h1
          simp only [patchQualifies, Bool.and_eq_true,
            Bool.not_eq_true'] at hq
          exact hq.1.1
        · exact ⟨m, hm2, hq, himp⟩

/-- Running the scan with the flag already set: the patched voxel either
keeps its entry value or ends re-homed to some set `coc` with the matching
strictly-smaller distance. -/
theorem patchScan_cur_true (r : Range) (curIdx : GIdx) :
    ∀ (l : List GIdx) (st : EsdfState), curIdx ∉ l →
    getVox (patchScan r curIdx st true l).1 curIdx = getVox st curIdx ∨
    ∃ c, isUndef c = false ∧
      getVox (patchScan r curIdx st true l).1 curIdx
        = { getVox st curIdx with
            distNeg := false
            distSq := distSqN c curIdx
            cocIdx := c } ∧
      distSqN c curIdx < (getVox st curIdx).distSq := by
  intro l
  induction l with
  | nil => intro st h; exact Or.inl rfl
  | cons n rest ih =>
    intro st hc
    have hncur : n ≠ curIdx := by
      intro h; exact hc (h ▸ List.mem_cons_self n rest)
    have hcr : curIdx ∉ rest := fun h => hc (List.mem_cons_of_mem n h)
    simp only [patchScan]
    split_ifs with h1 h2 h3
    · -- improvement at n, then the rest of the scan
      rcases ih (setVox st curIdx
          { getVox st curIdx with
            distNeg := false
            distSq := distSqN (getVox st n).cocIdx curIdx
            cocIdx := (getVox st n).cocIdx }) hcr with hsame | ⟨c, hcu, hrec, hlt⟩
      · refine Or.inr ⟨(getVox st n).cocIdx, ?_, ?_, h3⟩
        · simp only [Bool.and_eq_true, decide_eq_true_eq] at h2
          exact h2.2
        · rw [hsame, getVox_setVox_self]
      · refine Or.inr ⟨c, hcu, ?_, ?_⟩
        · rw [hrec, getVox_setVox_self]
        · rw [getVox_setVox_self] at hlt
          exact lt_trans hlt h3
    · exact ih st hcr
    · exact ih st hcr
    · exact ih st hcr

/-- When the scan starts with the flag clear and ends with it set, the
patched voxel is re-homed: its new `coc_idx` is set, its stored distance
matches the new `coc`, its sign slot is positive (the sign is applied by
the caller afterwards), and the distance strictly improved.  Nothing else
changed (`patchScan_frame`). -/
theorem patchScan_cur_char (r : Range) (curIdx : GIdx) :
    ∀ (l : List GIdx) (st : EsdfState), curIdx ∉ l →
    (patchScan r curIdx st false l).2 = true →
    ∃ c, isUndef c = false ∧
      getVox (patchScan r curIdx st false l).1 curIdx
        = { getVox st curIdx with
            distNeg := false
            distSq := distSqN c curIdx
            cocIdx := c } ∧
      distSqN c curIdx < (getVox st curIdx).distSq := by
  intro l
  induction l with
  | nil => intro st h hflag; cases hflag
  | cons n rest ih =>
    intro st hc hflag
    have hncur : n ≠ curIdx := by
      intro h; exact hc (h ▸ List.mem_cons_self n rest)
    have hcr : curIdx ∉ rest := fun h => hc (List.mem_cons_of_mem n h)
    simp only [patchScan] at hflag ⊢
    split_ifs at hflag ⊢ with h1 h2 h3
    · -- improvement at n, then the rest of the scan with the flag set
      rcases patchScan_cur_true r curIdx rest (setVox st curIdx
          { getVox st curIdx with
            distNeg := false
            distSq := distSqN (getVox st n).cocIdx curIdx
            cocIdx := (getVox st n).cocIdx }) hcr with hsame | ⟨c, hcu, hrec, hlt⟩
      · refine ⟨(getVox st n).cocIdx, ?_, ?_, h3⟩
        · simp only [Bool.and_eq_true, decide_eq_true_eq] at h2
          exact h2.2
        · rw [hsame, getVox_setVox_self]
      · refine ⟨c, hcu, ?_, ?_⟩
        · rw [hrec, getVox_setVox_self]
        · rw [getVox_setVox_self] at hlt
          exact lt_trans hlt h3
    · exact ih st hcr hflag
    · exact ih st hcr hflag
    · exact ih st hcr hflag

/-! ### C6: the patch applies and the relaxation is skipped -/

/-- After `insertIntoList`, the obstacle's `head_idx` is the member's
`self_idx` (in both branches of the splice). -/
theorem insertIntoList_head (st : EsdfState) (o m : GIdx) :
    (getVox (insertIntoList st o m) o).headIdx = (getVox st m).selfIdx := by
  unfold insertIntoList
  rcases Bool.eq_false_or_eq_true (isUndef (getVox st o).headIdx) with
    hu | hu
  · simp only [hu, if_true, setHead, getVox_setVox_self]
  · simp only [hu, Bool.false_eq_true, if_false]
    rw [setHead, getVox_setVox_self]
    dsimp only
    have h2 : core (getVox (setNext
        (setPrev st (getVox st o).headIdx (getVox st m).selfIdx) m
        (getVox (setPrev st (getVox st o).headIdx (getVox st m).selfIdx)
          o).headIdx) m)
        = core (getVox st m) := by
      rw [core_setNext, core_setPrev]
    rw [selfIdx_of_core_eq h2]

/-- `patchApply` touches no non-link field of any voxel other than the one
being patched. -/
theorem patchApply_frame (st1 : EsdfState) (curIdx coc0 j : GIdx)
    (hj : j ≠ curIdx) :
    core (getVox (patchApply st1 curIdx coc0) j) = core (getVox st1 j) := by
  unfold patchApply
  rw [core_insertIntoList, core_deleteFromList,
    getVox_setVox_ne _ _ _ _ hj]

/-- The non-link fields of the patched voxel after `patchApply`: only the
sign slot changed, by the `behind ? -distance : distance` write. -/
theorem patchApply_cur (st1 : EsdfState) (curIdx coc0 : GIdx) :
    core (getVox (patchApply st1 curIdx coc0) curIdx)
      = core { getVox st1 curIdx with
          distNeg := if (getVox st1 curIdx).behind = true then
              !(getVox st1 curIdx).distNeg
            else (getVox st1 curIdx).distNeg } := by
  unfold patchApply
  rw [core_insertIntoList, core_deleteFromList, getVox_setVox_self]

/-- After `patchApply` the voxel sits at the head of its (new) closest
obstacle's dependents list. -/
theorem patchApply_head (st1 : EsdfState) (curIdx coc0 : GIdx) :
    (getVox (patchApply st1 curIdx coc0)
      ((getVox st1 curIdx).cocIdx)).headIdx
      = (getVox st1 curIdx).selfIdx := by
  unfold patchApply
  have hcoc : (getVox (deleteFromList
      (setVox st1 curIdx
        { getVox st1 curIdx with
          distNeg := if (getVox st1 curIdx).behind = true then
              !(getVox st1 curIdx).distNeg
            else (getVox st1 curIdx).distNeg })
      coc0 curIdx) curIdx).cocIdx = (getVox st1 curIdx).cocIdx := by
    have h := core_deleteFromList (setVox st1 curIdx
      { getVox st1 curIdx with
        distNeg := if (getVox st1 curIdx).behind = true then
            !(getVox st1 curIdx).distNeg
          else (getVox st1 curIdx).distNeg }) coc0 curIdx curIdx
    rw [cocIdx_of_core_eq h, getVox_setVox_self]
  have hself : (getVox (deleteFromList
      (setVox st1 curIdx
        { getVox st1 curIdx with
          distNeg := if (getVox st1 curIdx).behind = true then
              !(getVox st1 curIdx).distNeg
            else (getVox st1 curIdx).distNeg })
      coc0 curIdx) curIdx).selfIdx = (getVox st1 curIdx).selfIdx := by
    have h := core_deleteFromList (setVox st1 curIdx
      { getVox st1 curIdx with
        distNeg := if (getVox st1 curIdx).behind = true then
            !(getVox st1 curIdx).distNeg
          else (getVox st1 curIdx).distNeg }) coc0 curIdx curIdx
    rw [selfIdx_of_core_eq h, getVox_setVox_self]
  dsimp only
  rw [hcoc, insertIntoList_head, hself]

/-- C6: with `config.patch_on` set, when some in-range observed neighbour's
`coc_idx` yields a strictly smaller distance to the popped voxel, one
propagation step re-homes the popped voxel (new `coc_idx`, matching
strictly-smaller distance, `behind` sign applied), inserts it at the head
of the new obstacle's dependents list, pushes exactly it back onto the
queue, and skips the downstream relaxation entirely: every other voxel
keeps all its non-link fields (no neighbour is relaxed in that
iteration). -/
theorem c6_patch_skips_relaxation (cfg : Config) (r : Range)
    (nbrsF : GIdx → List GIdx) (st : EsdfState) (curIdx : GIdx)
    (hp : cfg.patchOn = true) (hself : (getVox st curIdx).selfIdx = curIdx)
    (hnc : curIdx ∉ nbrsF curIdx)
    (himp : ∃ n ∈ nbrsF curIdx, patchQualifies r st n = true ∧
      distSqN (getVox st n).cocIdx curIdx < (getVox st curIdx).distSq) :
    (propStep cfg r nbrsF st curIdx).2 = [curIdx] ∧
    (∃ c, isUndef c = false ∧
      (getVox (propStep cfg r nbrsF st curIdx).1 curIdx).cocIdx = c ∧
      (getVox (propStep cfg r nbrsF st curIdx).1 curIdx).distSq
          = distSqN c curIdx ∧
      distSqN c curIdx < (getVox st curIdx).distSq ∧
      (getVox (propStep cfg r nbrsF st curIdx).1 curIdx).distNeg
          = (getVox st curIdx).behind ∧
      (getVox (propStep cfg r nbrsF st curIdx).1 c).headIdx = curIdx) ∧
    (∀ j, j ≠ curIdx →
      core (getVox (propStep cfg r nbrsF st curIdx).1 j)
        = core (getVox st j)) := by
  have hflag : (patchScan r curIdx st false (nbrsF curIdx)).2 = true :=
    (patchScan_flag_iff r curIdx (nbrsF curIdx) st hnc).mpr himp
  obtain ⟨c, hcu, hcur, hlt⟩ :=
    patchScan_cur_char r curIdx (nbrsF curIdx) st hnc hflag
  have hstep : propStep cfg r nbrsF st curIdx
      = (patchApply (patchScan r curIdx st false (nbrsF curIdx)).1 curIdx
          (getVox st curIdx).cocIdx, [curIdx]) := by
    simp only [propStep, hp, if_true, hflag]
  rw [hstep]
  refine ⟨rfl, ⟨c, hcu, ?_, ?_, hlt, ?_, ?_⟩, ?_⟩
  · rw [cocIdx_of_core_eq (patchApply_cur _ curIdx _), hcur]
  · rw [distSq_of_core_eq (patchApply_cur _ curIdx _), hcur]
  · rw [distNeg_of_core_eq (patchApply_cur _ curIdx _), hcur]
    dsimp only
    cases hb : (getVox st curIdx).behind <;> simp [hb]
  · have h1 : (getVox (patchScan r curIdx st false
        (nbrsF curIdx)).1 curIdx).cocIdx = c := by rw [hcur]
    have h2 := patchApply_head (patchScan r curIdx st false (nbrsF curIdx)).1
      curIdx (getVox st curIdx).cocIdx
    rw [h1] at h2
    rw [h2, hcur]
    dsimp only
    exact hself
  · intro j hj
    rw [patchApply_frame _ curIdx _ j hj,
      patchScan_frame r curIdx _ _ _ _ hj]

/-- C6 witness scenario: the popped voxel. -/
def c6cur : GIdx := ⟨0, 0, 0⟩

/-- C6 witness scenario: the popped voxel currently claims the obstacle at
`(3,0,0)` (squared distance 9); its neighbour `(1,0,0)` knows the obstacle
at `(1,1,0)` (squared distance 2 to the popped voxel). -/
def c6st : EsdfState :=
  [(c6cur, { observed := true, selfIdx := c6cur, cocIdx := ⟨3,0,0⟩, distSq := 9 }),
   (⟨1,0,0⟩, { observed := true, selfIdx := ⟨1,0,0⟩, cocIdx := ⟨1,1,0⟩, distSq := 2 }),
   (⟨3,0,0⟩, { observed := true, selfIdx := ⟨3,0,0⟩, cocIdx := ⟨3,0,0⟩, headIdx := c6cur })]

/-- C6, witness instance: at the concrete state the patch fires, `cur` is
re-homed and re-pushed, and the relaxation is skipped. -/
theorem c6_witness :
    c3cfg.patchOn = true ∧
    ((propStep c3cfg c5r neighborhood24 c6st c6cur).2 = [c6cur] ∧
    (∃ c, isUndef c = false ∧
      (getVox (propStep c3cfg c5r neighborhood24 c6st c6cur).1 c6cur).cocIdx
          = c ∧
      (getVox (propStep c3cfg c5r neighborhood24 c6st c6cur).1 c6cur).distSq
          = distSqN c c6cur ∧
      distSqN c c6cur < (getVox c6st c6cur).distSq ∧
      (getVox (propStep c3cfg c5r neighborhood24 c6st c6cur).1 c6cur).distNeg
          = (getVox c6st c6cur).behind ∧
      (getVox (propStep c3cfg c5r neighborhood24 c6st c6cur).1 c).headIdx
          = c6cur) ∧
    (∀ j, j ≠ c6cur →
      core (getVox (propStep c3cfg c5r neighborhood24 c6st c6cur).1 j)
        = core (getVox c6st j))) :=
  ⟨by decide,
    c6_patch_skips_relaxation c3cfg c5r neighborhood24 c6st c6cur (by decide)
      (by decide) (not_mem_neighborhood24_self c6cur)
      ⟨⟨1,0,0⟩, by decide, by decide, by decide⟩⟩

/-! ### C10: an obstacle voxel keeps `distance = 0` and `coc = self` -/

theorem relaxUnlink_core (st : EsdfState) (n j : GIdx) :
    core (getVox (relaxUnlink st n) j) = core (getVox st j) := by
  unfold relaxUnlink
  split_ifs
  · rw [core_deleteFromList]
  · rfl

theorem relaxWrite_frame (st : EsdfState) (curIdx n j : GIdx) (hj : j ≠ n) :
    getVox (relaxWrite st curIdx n) j = getVox st j := by
  unfold relaxWrite
  rw [getVox_setVox_ne _ _ _ _ hj]

/-- An improving relaxation leaves every other voxel's non-link fields
unchanged. -/
theorem relaxUpdate_frame (st : EsdfState) (curIdx cocIdx0 n j : GIdx)
    (hj : j ≠ n) :
    core (getVox (relaxUpdate st curIdx cocIdx0 n) j)
      = core (getVox st j) := by
  unfold relaxUpdate
  rw [core_insertIntoList, getVox_setVox_ne _ _ _ _ hj, relaxUnlink_core,
    relaxWrite_frame st curIdx n j hj]

/-- The non-link fields the improving relaxation writes into the
neighbour: sign slot from `behind`, distance from the popped voxel's
`coc`, and that `coc` adopted. -/
theorem relaxUpdate_n (st : EsdfState) (curIdx cocIdx0 n : GIdx) :
    core (getVox (relaxUpdate st curIdx cocIdx0 n) n)
      = ((getVox st n).observed, (getVox st n).behind, (getVox st n).behind,
         distSqN (getVox st curIdx).cocIdx n, (getVox st curIdx).cocIdx,
         (getVox st n).selfIdx) := by
  unfold relaxUpdate
  dsimp only
  rw [core_insertIntoList, getVox_setVox_self]
  have hs2n : core (getVox (relaxUnlink (relaxWrite st curIdx n) n) n)
      = core (getVox (relaxWrite st curIdx n) n) := relaxUnlink_core _ _ _
  have hs1n : getVox (relaxWrite st curIdx n) n
      = { getVox st n with
          distNeg := (getVox st n).behind
          distSq := distSqN (getVox st curIdx).cocIdx n } := by
    unfold relaxWrite
    rw [getVox_setVox_self]
  have hs2cur : (getVox (relaxUnlink (relaxWrite st curIdx n) n)
      curIdx).cocIdx = (getVox st curIdx).cocIdx := by
    rw [cocIdx_of_core_eq (relaxUnlink_core _ _ _)]
    by_cases hcn : curIdx = n
    · subst hcn
      rw [hs1n]
    · rw [relaxWrite_frame st curIdx n curIdx hcn]
  simp only [core]
  rw [hs2cur]
  rw [observed_of_core_eq hs2n, behind_of_core_eq hs2n,
    distNeg_of_core_eq hs2n, distSq_of_core_eq hs2n, selfIdx_of_core_eq hs2n,
    hs1n]

/-- The C10 invariant for a fixed obstacle voxel `v`. -/
def ObsZero (st : EsdfState) (v : GIdx) : Prop :=
  (getVox st v).distSq = 0 ∧ (getVox st v).cocIdx = v

/-- One relaxation never touches a voxel at `|distance| = 0`: the
`std::abs(nbr_vox->distance) > 0.0` guard skips it as a target, and every
other write touches other voxels or only link fields. -/
theorem relaxOne_pres_obsZero (r : Range) (curIdx cocIdx0 v : GIdx)
    (stq : EsdfState × Queue) (n : GIdx) (h : ObsZero stq.1 v) :
    ObsZero (relaxOne r curIdx cocIdx0 stq n).1 v := by
  unfold relaxOne
  dsimp only
  split_ifs with h1 h2 h3
  · have hnv : v ≠ n := by
      intro he
      simp only [Bool.and_eq_true, decide_eq_true_eq] at h2
      rw [← he, h.1] at h2
      exact absurd h2.2 (lt_irrefl 0)
    have hcore := relaxUpdate_frame stq.1 curIdx cocIdx0 n v hnv
    exact ⟨(distSq_of_core_eq hcore).trans h.1,
      (cocIdx_of_core_eq hcore).trans h.2⟩
  · exact h
  · exact h
  · exact h

/-- The relaxation pass preserves the obstacle invariant. -/
theorem relaxPass_pres_obsZero (r : Range) (curIdx cocIdx0 v : GIdx) :
    ∀ (l : List GIdx) (st : EsdfState) (q0 : Queue), ObsZero st v →
    ObsZero (List.foldl (relaxOne r curIdx cocIdx0) (st, q0) l).1 v := by
  intro l
  induction l with
  | nil => intro st q0 h; exact h
  | cons n rest ih =>
    intro st q0 h
    simp only [List.foldl_cons]
    have h1 := relaxOne_pres_obsZero r curIdx cocIdx0 v (st, q0) n h
    have hpair : relaxOne r curIdx cocIdx0 (st, q0) n
        = ((relaxOne r curIdx cocIdx0 (st, q0) n).1,
           (relaxOne r curIdx cocIdx0 (st, q0) n).2) := rfl
    rw [hpair]
    exact ih _ _ h1

/-- One propagation pop preserves the obstacle invariant (for any
neighbourhood in which no voxel neighbours itself, as with the
24-neighbourhood). -/
theorem propStep_pres_obsZero (cfg : Config) (r : Range)
    (nbrsF : GIdx → List GIdx) (st : EsdfState) (curIdx v : GIdx)
    (hnb : ∀ i, i ∉ nbrsF i) (h : ObsZero st v) :
    ObsZero (propStep cfg r nbrsF st curIdx).1 v := by
  unfold propStep
  dsimp only
  split_ifs with hp hflag
  · -- patch fired: it cannot have fired on the obstacle itself
    by_cases hcv : curIdx = v
    · exfalso
      subst hcv
      have := (patchScan_flag_iff r curIdx (nbrsF curIdx) st
        (hnb curIdx)).mp hflag
      obtain ⟨m, _, _, himp⟩ := this
      rw [h.1] at himp
      exact absurd himp (Nat.not_lt_zero _)
    · have hvc : v ≠ curIdx := fun he => hcv he.symm
      have hc1 : core (getVox (patchApply
          (patchScan r curIdx st false (nbrsF curIdx)).1 curIdx
          (getVox st curIdx).cocIdx) v)
          = core (getVox st v) := by
        rw [patchApply_frame _ curIdx _ v hvc,
          patchScan_frame r curIdx _ _ _ _ hvc]
      exact ⟨(distSq_of_core_eq hc1).trans h.1,
        (cocIdx_of_core_eq hc1).trans h.2⟩
  · -- patch scanned but changed nothing: its state is the entry state
    have hsame := (patchScan_false r curIdx (nbrsF curIdx) st false
      (Bool.eq_false_iff.mpr hflag)).2
    unfold relaxPass
    rw [hsame]
    exact relaxPass_pres_obsZero r curIdx _ v (nbrsF curIdx) st [] h
  · -- patch disabled
    unfold relaxPass
    exact relaxPass_pres_obsZero r curIdx _ v (nbrsF curIdx) st [] h

/-- C10: during wavefront propagation a voxel with `distance = 0` and
`coc_idx = self` (an inserted obstacle) keeps exactly those values for the
rest of the cycle: the patch can only fire on a strict improvement over
`|distance| = 0`, which is impossible, and the relaxation skips any
neighbour with `|distance| = 0`. -/
theorem c10_obstacle_never_modified (cfg : Config) (r : Range)
    (nbrsF : GIdx → List GIdx) (fuel : Nat) (st : EsdfState) (q : Queue)
    (res : EsdfState × Queue) (v : GIdx)
    (hnb : ∀ i, i ∉ nbrsF i)
    (hrun : propLoop cfg r nbrsF fuel st q = some res)
    (h0 : (getVox st v).distSq = 0) (h1 : (getVox st v).cocIdx = v) :
    (getVox res.1 v).distSq = 0 ∧ (getVox res.1 v).cocIdx = v := by
  have main : ∀ (fuel : Nat) (st : EsdfState) (q : Queue),
      propLoop cfg r nbrsF fuel st q = some res → ObsZero st v →
      ObsZero res.1 v := by
    intro fuel
    induction fuel with
    | zero => intro st q hrun; cases hrun
    | succ fuel ih =>
      intro st q hrun hinv
      cases q with
      | nil =>
        simp only [propLoop, Option.some.injEq] at hrun
        rw [← hrun]
        exact hinv
      | cons cur rest =>
        simp only [propLoop] at hrun
        exact ih _ _ hrun
          (propStep_pres_obsZero cfg r nbrsF st cur v hnb hinv)
  exact main fuel st q hrun ⟨h0, h1⟩

set_option maxRecDepth 20000 in
/-- C10, witness instance: running the propagation loop to completion on
the concrete patch scenario leaves the obstacle `(3,0,0)` at distance zero
with itself as closest obstacle. -/
theorem c10_witness :
    (getVox ((propLoop c3cfg c5r neighborhood24 9 c6st [c6cur]).getD
        (c6st, [])).1 (⟨3,0,0⟩ : GIdx)).distSq = 0 ∧
    (getVox ((propLoop c3cfg c5r neighborhood24 9 c6st [c6cur]).getD
        (c6st, [])).1 (⟨3,0,0⟩ : GIdx)).cocIdx = ⟨3,0,0⟩ :=
  c10_obstacle_never_modified c3cfg c5r neighborhood24 9 c6st [c6cur]
    ((propLoop c3cfg c5r neighborhood24 9 c6st [c6cur]).getD (c6st, []))
    ⟨3,0,0⟩ not_mem_neighborhood24_self (by decide) (by decide) (by decide)

/-! ### C4: the sign invariant -/

/-- The general shape of the delete-seed neighbour scan's effect: other
voxels are untouched, and the member either keeps its entry voxel or holds
an adopted closest obstacle `c` (a set index) with the matching positive
distance. -/
theorem deleteScan_char (cfg : Config) (occ : OccState) (r : Range)
    (tIdx : GIdx) : ∀ (l : List GIdx) (st : EsdfState),
    (∀ j, j ≠ tIdx → getVox (deleteScan cfg occ r tIdx st l) j
      = getVox st j) ∧
    (getVox (deleteScan cfg occ r tIdx st l) tIdx = getVox st tIdx ∨
     ∃ c, isUndef c = false ∧
       getVox (deleteScan cfg occ r tIdx st l) tIdx
         = { getVox st tIdx with
             distNeg := false
             distSq := distSqN c tIdx
             cocIdx := c }) := by
  intro l
  induction l with
  | nil => intro st; exact ⟨fun j hj => rfl, Or.inl rfl⟩
  | cons n rest ih =>
    intro st
    simp only [deleteScan]
    split_ifs with h1 h2 h3 h4 h5 h6
    · -- improving adoption, then early break
      refine ⟨fun j hj => getVox_setVox_ne _ _ _ _ hj, Or.inr ?_⟩
      refine ⟨(getVox st n).cocIdx, ?_, ?_⟩
      · simp only [Bool.and_eq_true, decide_eq_true_eq] at h2
        exact h2.2
      · rw [getVox_setVox_self]
    · -- no improvement, early break
      exact ⟨fun j hj => rfl, Or.inl rfl⟩
    · -- improving adoption, scan continues
      obtain ⟨ihf, ihc⟩ := ih (setVox st tIdx
        { getVox st tIdx with
          distNeg := false
          distSq := distSqN (getVox st n).cocIdx tIdx
          cocIdx := (getVox st n).cocIdx })
      refine ⟨fun j hj => by rw [ihf j hj, getVox_setVox_ne _ _ _ _ hj],
        Or.inr ?_⟩
      rcases ihc with hsame | ⟨c, hcu, hrec⟩
      · refine ⟨(getVox st n).cocIdx, ?_, ?_⟩
        · simp only [Bool.and_eq_true, decide_eq_true_eq] at h2
          exact h2.2
        · rw [hsame, getVox_setVox_self]
      · refine ⟨c, hcu, ?_⟩
        rw [hrec, getVox_setVox_self]
    · -- no improvement, scan continues
      exact ih st
    · -- closest obstacle no longer occupied
      exact ih st
    · -- not observed or no coc
      exact ih st
    · -- out of range
      exact ih st

/-- The sign invariant at one voxel (claim C4): when the closest obstacle
is set, a `behind` voxel's distance is negative — zero being permitted when
the voxel is an obstacle itself (`coc = self`) — and a non-`behind`
voxel's distance is non-negative.  Recall `distance < 0` means
`distNeg = true ∧ 0 < distSq`. -/
def SignOKAt (i : GIdx) (v : EsdfVoxel) : Prop :=
  isUndef v.cocIdx = false →
    (v.behind = true →
      (v.distNeg = true ∧ 0 < v.distSq) ∨ (v.distSq = 0 ∧ v.cocIdx = i)) ∧
    (v.behind = false → v.distNeg = false ∨ v.distSq = 0)

instance (i : GIdx) (v : EsdfVoxel) : Decidable (SignOKAt i v) := by
  unfold SignOKAt
  infer_instance

/-- The sign invariant over the whole ESDF layer. -/
def SignOK (st : EsdfState) : Prop := ∀ i, SignOKAt i (getVox st i)

theorem signOKAt_undef (i : GIdx) (v : EsdfVoxel)
    (h : isUndef v.cocIdx = true) : SignOKAt i v := by
  intro hc
  rw [h] at hc
  cases hc

theorem signOKAt_of_core_eq (i : GIdx) {v w : EsdfVoxel}
    (h : core v = core w) (hw : SignOKAt i w) : SignOKAt i v := by
  unfold SignOKAt
  rw [behind_of_core_eq h, distNeg_of_core_eq h, distSq_of_core_eq h,
    cocIdx_of_core_eq h]
  exact hw

/-- A state change that preserves every voxel's non-link fields preserves
the sign invariant. -/
theorem signOK_of_core_pointwise {st1 st : EsdfState}
    (hc : ∀ j, core (getVox st1 j) = core (getVox st j))
    (h : SignOK st) : SignOK st1 :=
  fun i => signOKAt_of_core_eq i (hc i) (h i)

/-- Entries-based criterion, used to discharge `SignOK` for concrete
states. -/
theorem signOK_of_entries (st : EsdfState)
    (h : ∀ p ∈ st, SignOKAt p.1 p.2) : SignOK st := by
  intro i
  unfold getVox
  cases hfind : st.find? (fun p => p.1 = i) with
  | none =>
    exact signOKAt_undef i defaultVoxel (by decide)
  | some p =>
    have hmem : p ∈ st := List.mem_of_find?_eq_some hfind
    have hkey : p.1 = i := by
      have := List.find?_some hfind
      simpa using this
    exact hkey ▸ h p hmem

/-- Insert seeding preserves the sign invariant: the seeded obstacle gets
`distance = 0` with `coc = self`, which the invariant permits for either
value of `behind`. -/
theorem insertSeedOne_pres (stq : EsdfState × Queue) (idx : GIdx)
    (h : SignOK stq.1) : SignOK (insertSeedOne stq idx).1 := by
  unfold insertSeedOne
  dsimp only
  set st0 := stq.1 with hst0
  have h1 : SignOK (if isUndef (getVox st0 idx).cocIdx = false then
      deleteFromList st0 (getVox st0 idx).cocIdx idx else st0) := by
    split_ifs
    · exact signOK_of_core_pointwise
        (fun j => core_deleteFromList st0 _ idx j) h
    · exact h
  set st1 := (if isUndef (getVox st0 idx).cocIdx = false then
      deleteFromList st0 (getVox st0 idx).cocIdx idx else st0) with hst1
  refine signOK_of_core_pointwise
    (fun j => core_insertIntoList _ idx idx j) ?_
  intro j
  by_cases hj : j = idx
  · subst hj
    rw [getVox_setVox_self]
    intro hc
    refine ⟨fun hb => Or.inr ⟨rfl, rfl⟩, fun hb => Or.inl rfl⟩
  · rw [getVox_setVox_ne _ _ _ _ hj]
    exact h1 j

/-- Draining the insert list preserves the sign invariant. -/
theorem insertSeedAll_pres (ins : List GIdx) :
    ∀ (st : EsdfState) (q : Queue), SignOK st →
    SignOK (insertSeedAll st q ins).1 := by
  induction ins with
  | nil => intro st q h; exact h
  | cons i rest ih =>
    intro st q h
    unfold insertSeedAll
    simp only [List.foldl_cons]
    have h1 := insertSeedOne_pres (st, q) i h
    have hpair : insertSeedOne (st, q) i
        = ((insertSeedOne (st, q) i).1, (insertSeedOne (st, q) i).2) := rfl
    rw [hpair]
    exact ih _ _ h1

/-- Closing a delete-seeded member restores the sign invariant: either no
obstacle was adopted (`coc = UNDEF`, vacuous) or the sign gets applied to
the freshly-adopted positive distance. -/
theorem deleteSeedTail_pres (st2 : EsdfState) (q : Queue) (t : GIdx)
    (hothers : ∀ j, j ≠ t → SignOKAt j (getVox st2 j))
    (hm : isUndef (getVox st2 t).cocIdx = true ∨
      ((getVox st2 t).distNeg = false ∧
       (getVox st2 t).distSq = distSqN (getVox st2 t).cocIdx t)) :
    SignOK (deleteSeedTail st2 q t).1 := by
  unfold deleteSeedTail
  dsimp only
  rcases Bool.eq_false_or_eq_true
    (isUndef (getVox (setVox st2 t
      { getVox st2 t with nextIdx := undefIdx, prevIdx := undefIdx })
      t).cocIdx) with hcu | hcu
  · -- nothing adopted: the member's coc is UNDEF, invariant vacuous there
    simp only [hcu, Bool.true_eq_false, if_false]
    intro j
    by_cases hj : j = t
    · subst hj
      rw [getVox_setVox_self] at hcu ⊢
      exact signOKAt_undef j _ hcu
    · rw [getVox_setVox_ne _ _ _ _ hj]
      exact hothers j hj
  · -- an obstacle was adopted: sign applied, member re-listed
    simp only [hcu, eq_self_iff_true, if_true]
    rw [getVox_setVox_self] at hcu
    dsimp only at hcu
    have hm2 : (getVox st2 t).distNeg = false ∧
        (getVox st2 t).distSq = distSqN (getVox st2 t).cocIdx t := by
      rcases hm with hl | hr
      · rw [hl] at hcu; cases hcu
      · exact hr
    refine signOK_of_core_pointwise
      (fun j => core_insertIntoList _ _ t j) ?_
    intro j
    by_cases hj : j = t
    · subst hj
      rw [getVox_setVox_self, getVox_setVox_self]
      unfold SignOKAt
      dsimp only
      intro _
      constructor
      · intro hb
        rw [hm2.1, if_pos hb]
        rcases Nat.eq_zero_or_pos (getVox st2 j).distSq with hz | hp
        · refine Or.inr ⟨hz, ?_⟩
          rw [hm2.2] at hz
          exact (distSqN_eq_zero_iff _ _).mp hz
        · exact Or.inl ⟨by simp, hp⟩
      · intro hb
        rw [hm2.1, if_neg (by simp [hb])]
        exact Or.inl rfl
    · rw [getVox_setVox_ne _ _ _ _ hj, getVox_setVox_ne _ _ _ _ hj]
      exact hothers j hj

/-- The delete-seeding body for one member preserves the sign
invariant. -/
theorem deleteSeedMember_pres (cfg : Config) (occ : OccState) (r : Range)
    (nbrsF : GIdx → List GIdx) (st : EsdfState) (q : Queue) (t : GIdx)
    (h : SignOK st) :
    SignOK (deleteSeedMember cfg occ r nbrsF st q t).1 := by
  unfold deleteSeedMember
  dsimp only
  rcases Bool.eq_false_or_eq_true (voxInRange r t) with hv | hv
  · -- in range: default distance written, then the neighbour scan
    simp only [hv, if_true]
    obtain ⟨hframe, hchar⟩ := deleteScan_char cfg occ r t (nbrsF t)
      (setVox (setVox st t { getVox st t with cocIdx := undefIdx }) t
        { getVox (setVox st t { getVox st t with cocIdx := undefIdx }) t with
          distNeg := false
          distSq := cfg.defaultSq })
    have hBt : getVox (setVox (setVox st t
        { getVox st t with cocIdx := undefIdx }) t
        { getVox (setVox st t { getVox st t with cocIdx := undefIdx }) t with
          distNeg := false
          distSq := cfg.defaultSq }) t
        = { getVox st t with
            cocIdx := undefIdx
            distNeg := false
            distSq := cfg.defaultSq } := by
      rw [getVox_setVox_self, getVox_setVox_self]
    apply deleteSeedTail_pres
    · intro j hj
      rw [hframe j hj, getVox_setVox_ne _ _ _ _ hj,
        getVox_setVox_ne _ _ _ _ hj]
      exact h j
    · rcases hchar with hsame | ⟨c, hcu, hrec⟩
      · refine Or.inl ?_
        rw [hsame, hBt]
        rfl
      · refine Or.inr ?_
        rw [hrec, hBt]
        exact ⟨rfl, rfl⟩
  · -- out of range: only the coc was cleared
    simp only [hv, Bool.false_eq_true, if_false]
    apply deleteSeedTail_pres
    · intro j hj
      rw [getVox_setVox_ne _ _ _ _ hj]
      exact h j
    · refine Or.inl ?_
      rw [getVox_setVox_self]
      rfl

/-- The delete-seeding traversal preserves the sign invariant. -/
theorem deleteSeedLoop_pres (cfg : Config) (occ : OccState) (r : Range)
    (nbrsF : GIdx → List GIdx) :
    ∀ (fuel : Nat) (st : EsdfState) (q : Queue) (t : GIdx), SignOK st →
    SignOK (deleteSeedLoop cfg occ r nbrsF fuel st q t).1 := by
  intro fuel
  induction fuel with
  | zero => intro st q t h; exact h
  | succ fuel ih =>
    intro st q t h
    rcases Bool.eq_false_or_eq_true (isUndef t) with hi | hi
    · simp only [deleteSeedLoop, hi, if_true]
      exact h
    · simp only [deleteSeedLoop, hi, Bool.false_eq_true, if_false]
      exact ih _ _ _ (deleteSeedMember_pres cfg occ r nbrsF st q t h)

/-- One delete-seeded obstacle preserves the sign invariant (the final
`head_idx` clear touches only a link field). -/
theorem deleteSeedObstacle_pres (cfg : Config) (occ : OccState) (r : Range)
    (nbrsF : GIdx → List GIdx) (fuel : Nat) (st : EsdfState) (q : Queue)
    (d : GIdx) (h : SignOK st) :
    SignOK (deleteSeedObstacle cfg occ r nbrsF fuel st q d).1 := by
  unfold deleteSeedObstacle
  dsimp only
  have hl := deleteSeedLoop_pres cfg occ r nbrsF fuel st q d h
  intro j
  by_cases hj : j = d
  · subst hj
    rw [getVox_setVox_self]
    refine signOKAt_of_core_eq j ?_ (hl j)
    rfl
  · rw [getVox_setVox_ne _ _ _ _ hj]
    exact hl j

/-- Draining the delete list preserves the sign invariant. -/
theorem deleteSeedAll_pres (cfg : Config) (occ : OccState) (r : Range)
    (nbrsF : GIdx → List GIdx) (fuel : Nat) (del : List GIdx) :
    ∀ (st : EsdfState) (q : Queue), SignOK st →
    SignOK (deleteSeedAll cfg occ r nbrsF fuel st q del).1 := by
  induction del with
  | nil => intro st q h; exact h
  | cons d rest ih =>
    intro st q h
    unfold deleteSeedAll
    simp only [List.foldl_cons]
    exact ih _ _ (deleteSeedObstacle_pres cfg occ r nbrsF fuel st q d h)

/-- One relaxation step preserves the sign invariant: an improved
neighbour gets the `behind` sign together with a distance that matches its
new closest obstacle. -/
theorem relaxOne_pres (r : Range) (curIdx cocIdx0 : GIdx)
    (stq : EsdfState × Queue) (n : GIdx) (h : SignOK stq.1) :
    SignOK (relaxOne r curIdx cocIdx0 stq n).1 := by
  unfold relaxOne
  dsimp only
  split_ifs with h1 h2 h3
  · intro j
    by_cases hj : j = n
    · subst hj
      have hc := relaxUpdate_n stq.1 curIdx cocIdx0 j
      simp only [core, Prod.mk.injEq] at hc
      obtain ⟨ho, hb, hneg, hsq, hcoc, hself⟩ := hc
      intro hcu
      constructor
      · intro hbt
        rw [hb] at hbt
        rw [hneg, hsq, hbt]
        rcases Nat.eq_zero_or_pos
          (distSqN (getVox stq.1 curIdx).cocIdx j) with hz | hp
        · refine Or.inr ⟨hz, ?_⟩
          rw [hcoc]
          exact (distSqN_eq_zero_iff _ _).mp hz
        · exact Or.inl ⟨rfl, hp⟩
      · intro hbf
        rw [hb] at hbf
        rw [hneg, hbf]
        exact Or.inl rfl
    · exact signOKAt_of_core_eq j
        (relaxUpdate_frame stq.1 curIdx cocIdx0 n j hj) (h j)
  · exact h
  · exact h
  · exact h

/-- The relaxation pass preserves the sign invariant. -/
theorem relaxPass_pres (r : Range) (curIdx cocIdx0 : GIdx) :
    ∀ (l : List GIdx) (st : EsdfState) (q0 : Queue), SignOK st →
    SignOK (List.foldl (relaxOne r curIdx cocIdx0) (st, q0) l).1 := by
  intro l
  induction l with
  | nil => intro st q0 h; exact h
  | cons n rest ih =>
    intro st q0 h
    simp only [List.foldl_cons]
    have h1 := relaxOne_pres r curIdx cocIdx0 (st, q0) n h
    have hpair : relaxOne r curIdx cocIdx0 (st, q0) n
        = ((relaxOne r curIdx cocIdx0 (st, q0) n).1,
           (relaxOne r curIdx cocIdx0 (st, q0) n).2) := rfl
    rw [hpair]
    exact ih _ _ h1

/-- One propagation pop preserves the sign invariant (for a neighbourhood
in which no voxel neighbours itself). -/
theorem propStep_pres (cfg : Config) (r : Range)
    (nbrsF : GIdx → List GIdx) (st : EsdfState) (curIdx : GIdx)
    (hnb : ∀ i, i ∉ nbrsF i) (h : SignOK st) :
    SignOK (propStep cfg r nbrsF st curIdx).1 := by
  unfold propStep
  dsimp only
  split_ifs with hp hflag
  · -- the patch fired
    obtain ⟨c, hcu, hcur, hlt⟩ := patchScan_cur_char r curIdx (nbrsF curIdx)
      st (hnb curIdx) hflag
    intro j
    by_cases hj : j = curIdx
    · subst hj
      have hc := patchApply_cur (patchScan r j st false (nbrsF j)).1 j
        (getVox st j).cocIdx
      rw [hcur] at hc
      refine signOKAt_of_core_eq j hc ?_
      unfold SignOKAt
      dsimp only
      intro _
      constructor
      · intro hbt
        rw [if_pos hbt]
        rcases Nat.eq_zero_or_pos (distSqN c j) with hz | hp2
        · exact Or.inr ⟨hz, (distSqN_eq_zero_iff _ _).mp hz⟩
        · exact Or.inl ⟨by simp, hp2⟩
      · intro hbf
        rw [if_neg (by simp [hbf])]
        exact Or.inl rfl
    · refine signOKAt_of_core_eq j ?_ (h j)
      rw [patchApply_frame _ curIdx _ j hj,
        patchScan_frame r curIdx _ _ _ _ hj]
  · -- the patch scanned but changed nothing
    have hsame := (patchScan_false r curIdx (nbrsF curIdx) st false
      (Bool.eq_false_iff.mpr hflag)).2
    unfold relaxPass
    rw [hsame]
    exact relaxPass_pres r curIdx _ (nbrsF curIdx) st [] h
  · -- the patch is disabled
    unfold relaxPass
    exact relaxPass_pres r curIdx _ (nbrsF curIdx) st [] h

/-- The propagation loop preserves the sign invariant. -/
theorem propLoop_pres (cfg : Config) (r : Range)
    (nbrsF : GIdx → List GIdx) (hnb : ∀ i, i ∉ nbrsF i) :
    ∀ (fuel : Nat) (st : EsdfState) (q : Queue) (res : EsdfState × Queue),
    propLoop cfg r nbrsF fuel st q = some res → SignOK st →
    SignOK res.1 := by
  intro fuel
  induction fuel with
  | zero => intro st q res hrun; cases hrun
  | succ fuel ih =>
    intro st q res hrun h
    cases q with
    | nil =>
      simp only [propLoop, Option.some.injEq] at hrun
      rw [← hrun]
      exact h
    | cons cur rest =>
      simp only [propLoop] at hrun
      exact ih _ _ res hrun (propStep_pres cfg r nbrsF st cur hnb h)

/-- C4: the sign invariant holds at rest after every update cycle.  If
every ESDF voxel with a set `coc_idx` satisfies "`distance < 0` iff
`behind`, with `distance = 0` permitted at an obstacle itself" before the
cycle, then it does again after the cycle: insert seeding writes
`distance = 0, coc = self`; delete seeding clears `coc` or adopts a
positive distance and then applies the sign; the patch and the relaxation
write matching `(sign, distance, coc)` triples; list operations touch only
link fields. -/
theorem c4_sign_invariant (cfg : Config) (occ : OccState)
    (nbrsF : GIdx → List GIdx) (vps : Int) (dfuel pfuel : Nat)
    (st : EsdfState) (ins del : List GIdx) (res : EsdfState × List GIdx)
    (hnb : ∀ i, i ∉ nbrsF i)
    (hrun : runCycle cfg occ nbrsF vps dfuel pfuel st ins del = some res)
    (h : SignOK st) : SignOK res.1 := by
  unfold runCycle at hrun
  dsimp only at hrun
  have hseed : SignOK (seedPhases cfg occ
      (localRange (getUpdateRange ins del).1 (getUpdateRange ins del).2
        cfg.off) nbrsF dfuel st ins del).1 := by
    unfold seedPhases
    dsimp only
    apply deleteSeedAll_pres
    exact insertSeedAll_pres ins st [] h
  cases hprop : propLoop cfg
      (localRange (getUpdateRange ins del).1 (getUpdateRange ins del).2
        cfg.off) nbrsF pfuel
      (seedPhases cfg occ
        (localRange (getUpdateRange ins del).1 (getUpdateRange ins del).2
          cfg.off) nbrsF dfuel st ins del).1
      (seedPhases cfg occ
        (localRange (getUpdateRange ins del).1 (getUpdateRange ins del).2
          cfg.off) nbrsF dfuel st ins del).2 with
  | none =>
    rw [hprop] at hrun
    cases hrun
  | some pr =>
    rw [hprop] at hrun
    simp only [Option.some.injEq] at hrun
    have hs := propLoop_pres cfg _ nbrsF hnb pfuel _ _ pr hprop hseed
    rw [← hrun]
    exact hs

set_option maxRecDepth 20000 in
/-- C4, witness instance: a full concrete cycle (insert one obstacle into a
sign-correct state) ends in a sign-correct state. -/
theorem c4_witness :
    SignOK ((runCycle c3cfg [] neighborhood24 8 3 3 c3st [c3A] []).getD
      ([], [])).1 :=
  c4_sign_invariant c3cfg [] neighborhood24 8 3 3 c3st [c3A] []
    ((runCycle c3cfg [] neighborhood24 8 3 3 c3st [c3A] []).getD ([], []))
    not_mem_neighborhood24_self (by decide)
    (signOK_of_entries c3st (by decide))

/-! ### C8: the propagation loop terminates with an empty queue

Termination measure: twice the sum of the stored squared distances over the
working-range box, plus the queue length.  Every pop costs one queue entry;
the patch and every improving relaxation pay for each accompanying push by
strictly decreasing the stored squared distance of an in-range voxel, and
every index ever queued lies in the working range. -/

/-- The finite box of integer triples inside the working range. -/
def rangeBox (r : Range) : Finset (Int × Int × Int) :=
  Finset.Icc r.rmin.x r.rmax.x ×ˢ
    (Finset.Icc r.rmin.y r.rmax.y ×ˢ Finset.Icc r.rmin.z r.rmax.z)

/-- Repackage a triple as a global index. -/
def mkIdx (p : Int × Int × Int) : GIdx := ⟨p.1, p.2.1, p.2.2⟩

/-- Sum of the stored squared distances over the working-range box. -/
def sigmaSq (r : Range) (st : EsdfState) : Nat :=
  ∑ p ∈ rangeBox r, (getVox st (mkIdx p)).distSq

theorem mkIdx_triple (i : GIdx) : mkIdx (i.x, i.y, i.z) = i := rfl

theorem mem_rangeBox (r : Range) (p : Int × Int × Int) :
    p ∈ rangeBox r ↔ voxInRange r (mkIdx p) = true := by
  obtain ⟨a, b, c⟩ := p
  simp [rangeBox, Finset.mem_product, Finset.mem_Icc, voxInRange, mkIdx,
    Bool.and_eq_true, decide_eq_true_eq, and_assoc]

/-- Exchange one summand of a sum over a finite set. -/
theorem sum_update (s : Finset (Int × Int × Int))
    (f g : Int × Int × Int → Nat) (p0 : Int × Int × Int) (hp : p0 ∈ s)
    (hsame : ∀ p ∈ s, p ≠ p0 → f p = g p) :
    (∑ p ∈ s, f p) + g p0 = (∑ p ∈ s, g p) + f p0 := by
  rw [← Finset.add_sum_erase s f hp, ← Finset.add_sum_erase s g hp]
  have hrest : (∑ p ∈ s.erase p0, f p) = ∑ p ∈ s.erase p0, g p :=
    Finset.sum_congr rfl (fun p hp' =>
      hsame p (Finset.mem_of_mem_erase hp') (Finset.ne_of_mem_erase hp'))
  omega

theorem sigmaSq_congr (r : Range) {st1 st : EsdfState}
    (h : ∀ j, (getVox st1 j).distSq = (getVox st j).distSq) :
    sigmaSq r st1 = sigmaSq r st :=
  Finset.sum_congr rfl (fun p _ => h (mkIdx p))

theorem sigmaSq_setVox_inRange (r : Range) (st : EsdfState) (i : GIdx)
    (v : EsdfVoxel) (h : voxInRange r i = true) :
    sigmaSq r (setVox st i v) + (getVox st i).distSq =
      sigmaSq r st + v.distSq := by
  have hp : (i.x, i.y, i.z) ∈ rangeBox r := by
    rw [mem_rangeBox, mkIdx_triple]
    exact h
  have hmain := sum_update (rangeBox r)
    (fun p => (getVox (setVox st i v) (mkIdx p)).distSq)
    (fun p => (getVox st (mkIdx p)).distSq) (i.x, i.y, i.z) hp ?hsame
  case hsame =>
    intro p hmem hne
    have hni : mkIdx p ≠ i := by
      intro hc
      apply hne
      obtain ⟨a, b, c⟩ := p
      obtain ⟨ix, iy, iz⟩ := i
      simp only [mkIdx, GIdx.mk.injEq] at hc
      simp [hc.1, hc.2.1, hc.2.2]
    simp only [getVox_setVox_ne st i (mkIdx p) v hni]
  simp only [mkIdx_triple, getVox_setVox_self] at hmain
  unfold sigmaSq
  omega

theorem sigmaSq_setVox_outRange (r : Range) (st : EsdfState) (i : GIdx)
    (v : EsdfVoxel) (h : voxInRange r i = false) :
    sigmaSq r (setVox st i v) = sigmaSq r st := by
  unfold sigmaSq
  refine Finset.sum_congr rfl (fun p hp => ?_)
  have hni : mkIdx p ≠ i := by
    intro hc
    rw [mem_rangeBox, hc, h] at hp
    simp at hp
  rw [getVox_setVox_ne st i (mkIdx p) v hni]

theorem sigmaSq_setVox_le (r : Range) (st : EsdfState) (i : GIdx)
    (v : EsdfVoxel) (h : v.distSq ≤ (getVox st i).distSq) :
    sigmaSq r (setVox st i v) ≤ sigmaSq r st := by
  cases hr : voxInRange r i with
  | false => rw [sigmaSq_setVox_outRange r st i v hr]
  | true =>
    have := sigmaSq_setVox_inRange r st i v hr
    omega

theorem sigmaSq_setVox_lt (r : Range) (st : EsdfState) (i : GIdx)
    (v : EsdfVoxel) (hr : voxInRange r i = true)
    (h : v.distSq < (getVox st i).distSq) :
    sigmaSq r (setVox st i v) < sigmaSq r st := by
  have := sigmaSq_setVox_inRange r st i v hr
  omega

theorem sigmaSq_deleteFromList (r : Range) (st : EsdfState)
    (occI curI : GIdx) :
    sigmaSq r (deleteFromList st occI curI) = sigmaSq r st :=
  sigmaSq_congr r
    (fun j => distSq_of_core_eq (core_deleteFromList st occI curI j))

theorem sigmaSq_insertIntoList (r : Range) (st : EsdfState)
    (occI curI : GIdx) :
    sigmaSq r (insertIntoList st occI curI) = sigmaSq r st :=
  sigmaSq_congr r
    (fun j => distSq_of_core_eq (core_insertIntoList st occI curI j))

theorem sigmaSq_relaxUnlink (r : Range) (st : EsdfState) (n : GIdx) :
    sigmaSq r (relaxUnlink st n) = sigmaSq r st := by
  unfold relaxUnlink
  split_ifs with h
  · exact sigmaSq_deleteFromList r st (getVox st n).cocIdx n
  · rfl

/-- Overwriting only `cocIdx` leaves every stored distance unchanged. -/
theorem sigmaSq_setCoc (r : Range) (st : EsdfState) (n x : GIdx) :
    sigmaSq r (setVox st n { getVox st n with cocIdx := x }) =
      sigmaSq r st := by
  apply sigmaSq_congr
  intro j
  rw [getVox_setVox]
  split_ifs with hj
  · subst hj
    rfl
  · rfl

theorem relaxUpdate_sigma (r : Range) (st : EsdfState)
    (curIdx cocIdx0 n : GIdx) (hr : voxInRange r n = true) :
    sigmaSq r (relaxUpdate st curIdx cocIdx0 n) + (getVox st n).distSq =
      sigmaSq r st + distSqN (getVox st curIdx).cocIdx n := by
  unfold relaxUpdate
  dsimp only
  rw [sigmaSq_insertIntoList, sigmaSq_setCoc, sigmaSq_relaxUnlink]
  unfold relaxWrite
  have := sigmaSq_setVox_inRange r st n
    { getVox st n with
      distNeg := (getVox st n).behind
      distSq := distSqN (getVox st curIdx).cocIdx n } hr
  exact this

/-- One relaxation step never increases the measure `2 * sigma + queue
length`: an improving write pays for its push. -/
theorem relaxOne_measure (r : Range) (curIdx cocIdx0 : GIdx)
    (stq : EsdfState × Queue) (n : GIdx) :
    2 * sigmaSq r (relaxOne r curIdx cocIdx0 stq n).1 +
      (relaxOne r curIdx cocIdx0 stq n).2.length ≤
      2 * sigmaSq r stq.1 + stq.2.length := by
  unfold relaxOne
  dsimp only
  split_ifs with h1 h2 h3
  · have hx := relaxUpdate_sigma r stq.1 curIdx cocIdx0 n h1
    simp only [List.length_append, List.length_cons, List.length_nil]
    omega
  · exact le_refl _
  · exact le_refl _
  · exact le_refl _

theorem relaxFold_measure (r : Range) (curIdx cocIdx0 : GIdx) :
    ∀ (nbrs : List GIdx) (stq : EsdfState × Queue),
    2 * sigmaSq r (nbrs.foldl (relaxOne r curIdx cocIdx0) stq).1 +
      (nbrs.foldl (relaxOne r curIdx cocIdx0) stq).2.length ≤
      2 * sigmaSq r stq.1 + stq.2.length := by
  intro nbrs
  induction nbrs with
  | nil => intro stq; simp
  | cons n rest ih =>
    intro stq
    simp only [List.foldl_cons]
    exact le_trans (ih _) (relaxOne_measure r curIdx cocIdx0 stq n)

theorem relaxPass_measure (r : Range) (curIdx cocIdx0 : GIdx)
    (st : EsdfState) (nbrs : List GIdx) :
    2 * sigmaSq r (relaxPass r curIdx cocIdx0 st nbrs).1 +
      (relaxPass r curIdx cocIdx0 st nbrs).2.length ≤
      2 * sigmaSq r st := by
  have h := relaxFold_measure r curIdx cocIdx0 nbrs (st, [])
  simpa [relaxPass] using h

theorem patchScan_sigma_le (r : Range) (curIdx : GIdx) :
    ∀ (l : List GIdx) (st : EsdfState) (flag : Bool),
    sigmaSq r (patchScan r curIdx st flag l).1 ≤ sigmaSq r st := by
  intro l
  induction l with
  | nil => intro st flag; exact le_refl _
  | cons n rest ih =>
    intro st flag
    simp only [patchScan]
    split_ifs with h1 h2 h3
    · exact le_trans (ih _ _) (sigmaSq_setVox_le r st curIdx _ (le_of_lt h3))
    · exact ih _ _
    · exact ih _ _
    · exact ih _ _

/-- A patch scan that raises the change flag strictly decreases the sum of
squared distances, provided the patched voxel is in range. -/
theorem patchScan_sigma_lt (r : Range) (curIdx : GIdx)
    (hcur : voxInRange r curIdx = true) :
    ∀ (l : List GIdx) (st : EsdfState),
    (patchScan r curIdx st false l).2 = true →
    sigmaSq r (patchScan r curIdx st false l).1 < sigmaSq r st := by
  intro l
  induction l with
  | nil =>
    intro st h
    simp [patchScan] at h
  | cons n rest ih =>
    intro st h
    simp only [patchScan] at h ⊢
    split_ifs at h ⊢ with h1 h2 h3
    · exact lt_of_le_of_lt (patchScan_sigma_le r curIdx rest _ true)
        (sigmaSq_setVox_lt r st curIdx _ hcur h3)
    · exact ih _ h
    · exact ih _ h
    · exact ih _ h

theorem patchApply_sigma (r : Range) (st1 : EsdfState)
    (curIdx cocIdx0 : GIdx) :
    sigmaSq r (patchApply st1 curIdx cocIdx0) = sigmaSq r st1 := by
  unfold patchApply
  dsimp only
  rw [sigmaSq_insertIntoList, sigmaSq_deleteFromList]
  apply sigmaSq_congr
  intro j
  rw [getVox_setVox]
  by_cases hj : j = curIdx
  · rw [if_pos hj]
    subst hj
    rfl
  · rw [if_neg hj]

/-- One pop strictly decreases the measure: the queue entry is consumed and
every push is paid for by a strict distance decrease. -/
theorem propStep_measure (cfg : Config) (r : Range)
    (nbrsF : GIdx → List GIdx) (st : EsdfState) (curIdx : GIdx)
    (hcur : voxInRange r curIdx = true) :
    2 * sigmaSq r (propStep cfg r nbrsF st curIdx).1 +
      (propStep cfg r nbrsF st curIdx).2.length ≤ 2 * sigmaSq r st := by
  unfold propStep
  dsimp only
  split_ifs with hp hf
  · dsimp only
    rw [patchApply_sigma]
    have hlt := patchScan_sigma_lt r curIdx hcur (nbrsF curIdx) st hf
    simp only [List.length_cons, List.length_nil]
    omega
  · have hf' : (patchScan r curIdx st false (nbrsF curIdx)).2 = false :=
      Bool.eq_false_iff.mpr hf
    have h0 := (patchScan_false r curIdx (nbrsF curIdx) st false hf').2
    rw [h0]
    exact relaxPass_measure r curIdx (getVox st curIdx).cocIdx st
      (nbrsF curIdx)
  · exact relaxPass_measure r curIdx (getVox st curIdx).cocIdx st
      (nbrsF curIdx)

theorem relaxOne_queue (r : Range) (curIdx cocIdx0 : GIdx)
    (stq : EsdfState × Queue) (n : GIdx) :
    ∀ e ∈ (relaxOne r curIdx cocIdx0 stq n).2,
      e ∈ stq.2 ∨ voxInRange r e = true := by
  unfold relaxOne
  dsimp only
  split_ifs with h1 h2 h3 <;> intro e he
  · dsimp only at he
    rcases List.mem_append.mp he with h | h
    · exact Or.inl h
    · have he' : e = n := by simpa using h
      subst he'
      exact Or.inr h1
  · exact Or.inl he
  · exact Or.inl he
  · exact Or.inl he

theorem relaxFold_queue (r : Range) (curIdx cocIdx0 : GIdx) :
    ∀ (nbrs : List GIdx) (stq : EsdfState × Queue),
    ∀ e ∈ (nbrs.foldl (relaxOne r curIdx cocIdx0) stq).2,
      e ∈ stq.2 ∨ voxInRange r e = true := by
  intro nbrs
  induction nbrs with
  | nil =>
    intro stq e he
    exact Or.inl (by simpa using he)
  | cons n rest ih =>
    intro stq e he
    simp only [List.foldl_cons] at he
    rcases ih (relaxOne r curIdx cocIdx0 stq n) e he with h | h
    · exact relaxOne_queue r curIdx cocIdx0 stq n e h
    · exact Or.inr h

/-- Every index a pop pushes lies in the working range (given that the
popped index itself does). -/
theorem propStep_pushes (cfg : Config) (r : Range)
    (nbrsF : GIdx → List GIdx) (st : EsdfState) (curIdx : GIdx)
    (hcur : voxInRange r curIdx = true) :
    ∀ e ∈ (propStep cfg r nbrsF st curIdx).2, voxInRange r e = true := by
  unfold propStep
  dsimp only
  split_ifs with hp hf <;> intro e he
  · have he' : e = curIdx := by simpa using he
    subst he'
    exact hcur
  · unfold relaxPass at he
    rcases relaxFold_queue r curIdx (getVox st curIdx).cocIdx
      (nbrsF curIdx) _ e he with h | h
    · simp at h
    · exact h
  · unfold relaxPass at he
    rcases relaxFold_queue r curIdx (getVox st curIdx).cocIdx
      (nbrsF curIdx) _ e he with h | h
    · simp at h
    · exact h

/-- Fuel `2 * sigma + |queue| + 1` always suffices: the loop returns with
the queue drained. -/
theorem propLoop_total (cfg : Config) (r : Range)
    (nbrsF : GIdx → List GIdx) :
    ∀ (n : Nat) (st : EsdfState) (q : Queue),
    2 * sigmaSq r st + q.length ≤ n →
    (∀ e ∈ q, voxInRange r e = true) →
    ∃ st', propLoop cfg r nbrsF (n + 1) st q = some (st', []) := by
  intro n
  induction n with
  | zero =>
    intro st q hb hq
    cases q with
    | nil => exact ⟨st, rfl⟩
    | cons c cs =>
      exfalso
      simp only [List.length_cons] at hb
      omega
  | succ m ih =>
    intro st q hb hq
    cases q with
    | nil => exact ⟨st, rfl⟩
    | cons cur rest =>
      have hcur : voxInRange r cur = true :=
        hq cur (List.mem_cons_self cur rest)
      have hm := propStep_measure cfg r nbrsF st cur hcur
      have hpush := propStep_pushes cfg r nbrsF st cur hcur
      have hb' : 2 * sigmaSq r (propStep cfg r nbrsF st cur).1 +
          (rest ++ (propStep cfg r nbrsF st cur).2).length ≤ m := by
        simp only [List.length_cons] at hb
        simp only [List.length_append]
        omega
      have hq' : ∀ e ∈ rest ++ (propStep cfg r nbrsF st cur).2,
          voxInRange r e = true := by
        intro e he
        rcases List.mem_append.mp he with h | h
        · exact hq e (List.mem_cons_of_mem cur h)
        · exact hpush e h
      obtain ⟨st', hst'⟩ := ih (propStep cfg r nbrsF st cur).1
        (rest ++ (propStep cfg r nbrsF st cur).2) hb' hq'
      exact ⟨st', hst'⟩

/-! Every index the two seeding phases leave on the queue lies in the
working range: the insert phase queues exactly the insert list (inside the
update range by construction), and the delete phase pushes a member only
after the in-range branch re-homed it. -/

/-- The update-range fold of `getUpdateRange` as a named function. -/
def updFold (mm : GIdx × GIdx) (l : List GIdx) : GIdx × GIdx :=
  l.foldl (fun mm i => (expandMin mm.1 i, expandMax mm.2 i)) mm

theorem getUpdateRange_eq_updFold (ins del : List GIdx) :
    getUpdateRange ins del =
      updFold (⟨UNDEFI, UNDEFI, UNDEFI⟩, ⟨-UNDEFI, -UNDEFI, -UNDEFI⟩)
        (ins ++ del) := rfl

theorem updFold_mono : ∀ (l : List GIdx) (mm : GIdx × GIdx),
    ((updFold mm l).1.x ≤ mm.1.x ∧ (updFold mm l).1.y ≤ mm.1.y ∧
      (updFold mm l).1.z ≤ mm.1.z) ∧
    (mm.2.x ≤ (updFold mm l).2.x ∧ mm.2.y ≤ (updFold mm l).2.y ∧
      mm.2.z ≤ (updFold mm l).2.z) := by
  intro l
  induction l with
  | nil => intro mm; simp [updFold]
  | cons i rest ih =>
    intro mm
    have h := ih (expandMin mm.1 i, expandMax mm.2 i)
    simp only [updFold, List.foldl_cons, expandMin, expandMax] at h ⊢
    omega

theorem updFold_bounds : ∀ (l : List GIdx) (mm : GIdx × GIdx) (i : GIdx),
    i ∈ l →
    ((updFold mm l).1.x ≤ i.x ∧ (updFold mm l).1.y ≤ i.y ∧
      (updFold mm l).1.z ≤ i.z) ∧
    (i.x ≤ (updFold mm l).2.x ∧ i.y ≤ (updFold mm l).2.y ∧
      i.z ≤ (updFold mm l).2.z) := by
  intro l
  induction l with
  | nil =>
    intro mm i hi
    simp at hi
  | cons j rest ih =>
    intro mm i hi
    rcases List.mem_cons.mp hi with he | hmem
    · subst he
      have h := updFold_mono rest (expandMin mm.1 i, expandMax mm.2 i)
      simp only [updFold, List.foldl_cons, expandMin, expandMax] at h ⊢
      omega
    · have h := ih (expandMin mm.1 j, expandMax mm.2 j) i hmem
      simp only [updFold, List.foldl_cons] at h ⊢
      exact h

theorem voxInRange_localRange (umin umax off i : GIdx)
    (hox : 0 ≤ off.x) (hoy : 0 ≤ off.y) (hoz : 0 ≤ off.z)
    (h1x : umin.x ≤ i.x) (h1y : umin.y ≤ i.y) (h1z : umin.z ≤ i.z)
    (h2x : i.x ≤ umax.x) (h2y : i.y ≤ umax.y) (h2z : i.z ≤ umax.z) :
    voxInRange (localRange umin umax off) i = true := by
  simp only [voxInRange, localRange, Bool.and_eq_true, decide_eq_true_eq]
  omega

theorem insertSeedFold_queue : ∀ (ins : List GIdx)
    (stq : EsdfState × Queue),
    (ins.foldl insertSeedOne stq).2 = stq.2 ++ ins := by
  intro ins
  induction ins with
  | nil => intro stq; simp
  | cons i rest ih =>
    intro stq
    simp only [List.foldl_cons]
    rw [ih]
    simp [insertSeedOne]

theorem deleteSeedTail_queue (st2 : EsdfState) (q : Queue) (t : GIdx) :
    ∀ e ∈ (deleteSeedTail st2 q t).2.1,
      e ∈ q ∨ (e = t ∧ isUndef (getVox st2 t).cocIdx = false) := by
  unfold deleteSeedTail
  dsimp only
  rw [getVox_setVox_self]
  dsimp only
  by_cases h : isUndef (getVox st2 t).cocIdx = false
  · rw [if_pos h]
    intro e he
    dsimp only at he
    rcases List.mem_append.mp he with h1 | h1
    · exact Or.inl h1
    · have he' : e = t := by simpa using h1
      subst he'
      exact Or.inr ⟨rfl, h⟩
  · rw [if_neg h]
    intro e he
    exact Or.inl he

theorem deleteSeedMember_queue (cfg : Config) (occ : OccState) (r : Range)
    (nbrsF : GIdx → List GIdx) (st : EsdfState) (q : Queue) (t : GIdx) :
    ∀ e ∈ (deleteSeedMember cfg occ r nbrsF st q t).2.1,
      e ∈ q ∨ voxInRange r e = true := by
  unfold deleteSeedMember
  dsimp only
  split_ifs with hr
  · intro e he
    rcases deleteSeedTail_queue _ _ _ e he with h | ⟨he', _⟩
    · exact Or.inl h
    · subst he'
      exact Or.inr hr
  · intro e he
    rcases deleteSeedTail_queue _ _ _ e he with h | ⟨he', hcoc⟩
    · exact Or.inl h
    · exfalso
      rw [getVox_setVox_self] at hcoc
      simp [isUndef, undefIdx] at hcoc

theorem deleteSeedLoop_queue (cfg : Config) (occ : OccState) (r : Range)
    (nbrsF : GIdx → List GIdx) :
    ∀ (fuel : Nat) (st : EsdfState) (q : Queue) (t : GIdx),
    ∀ e ∈ (deleteSeedLoop cfg occ r nbrsF fuel st q t).2.1,
      e ∈ q ∨ voxInRange r e = true := by
  intro fuel
  induction fuel with
  | zero =>
    intro st q t e he
    simp only [deleteSeedLoop] at he
    exact Or.inl he
  | succ m ih =>
    intro st q t e he
    simp only [deleteSeedLoop] at he
    split_ifs at he with hu
    · exact Or.inl he
    · dsimp only at he
      rcases ih _ _ _ e he with h | h
      · exact deleteSeedMember_queue cfg occ r nbrsF st q t e h
      · exact Or.inr h

theorem deleteSeedObstacle_queue (cfg : Config) (occ : OccState)
    (r : Range) (nbrsF : GIdx → List GIdx) (fuel : Nat) (st : EsdfState)
    (q : Queue) (d : GIdx) :
    ∀ e ∈ (deleteSeedObstacle cfg occ r nbrsF fuel st q d).2.1,
      e ∈ q ∨ voxInRange r e = true := by
  intro e he
  unfold deleteSeedObstacle at he
  dsimp only at he
  exact deleteSeedLoop_queue cfg occ r nbrsF fuel st q d e he

theorem deleteSeedFold_queue (cfg : Config) (occ : OccState) (r : Range)
    (nbrsF : GIdx → List GIdx) (fuel : Nat) :
    ∀ (del : List GIdx) (stq : EsdfState × Queue),
    ∀ e ∈ (del.foldl (fun stq d =>
        let r1 := deleteSeedObstacle cfg occ r nbrsF fuel stq.1 stq.2 d
        (r1.1, r1.2.1)) stq).2,
      e ∈ stq.2 ∨ voxInRange r e = true := by
  intro del
  induction del with
  | nil =>
    intro stq e he
    exact Or.inl (by simpa using he)
  | cons d rest ih =>
    intro stq e he
    simp only [List.foldl_cons] at he
    rcases ih _ e he with h | h
    · dsimp only at h
      exact deleteSeedObstacle_queue cfg occ r nbrsF fuel stq.1 stq.2 d e h
    · exact Or.inr h

theorem deleteSeedAll_queue (cfg : Config) (occ : OccState) (r : Range)
    (nbrsF : GIdx → List GIdx) (fuel : Nat) (st : EsdfState) (q : Queue)
    (del : List GIdx) :
    ∀ e ∈ (deleteSeedAll cfg occ r nbrsF fuel st q del).2,
      e ∈ q ∨ voxInRange r e = true := by
  intro e he
  unfold deleteSeedAll at he
  exact deleteSeedFold_queue cfg occ r nbrsF fuel del (st, q) e he

theorem seedPhases_queue (cfg : Config) (occ : OccState) (r : Range)
    (nbrsF : GIdx → List GIdx) (dfuel : Nat) (st : EsdfState)
    (ins del : List GIdx) (hins : ∀ i ∈ ins, voxInRange r i = true) :
    ∀ e ∈ (seedPhases cfg occ r nbrsF dfuel st ins del).2,
      voxInRange r e = true := by
  intro e he
  unfold seedPhases at he
  dsimp only at he
  rcases deleteSeedAll_queue cfg occ r nbrsF dfuel
      (insertSeedAll st [] ins).1 (insertSeedAll st [] ins).2 del e he
    with h | h
  · have hq : (insertSeedAll st [] ins).2 = [] ++ ins := by
      unfold insertSeedAll
      exact insertSeedFold_queue ins (st, [])
    rw [hq] at h
    simp only [List.nil_append] at h
    exact hins e h
  · exact h

/-- C8: with a nonnegative range-boundary offset (a configuration
contract), whatever the insert and delete lists, the occupancy and the
initial ESDF state, the wavefront-propagation loop of `updateESDF`
terminates — some finite fuel makes `propLoop` return — and at return the
queue is empty. -/
theorem c8_propagation_terminates (cfg : Config) (occ : OccState)
    (nbrsF : GIdx → List GIdx) (dfuel : Nat) (st : EsdfState)
    (ins del : List GIdx)
    (hoff : 0 ≤ cfg.off.x ∧ 0 ≤ cfg.off.y ∧ 0 ≤ cfg.off.z) :
    ∃ pfuel st',
      propLoop cfg
        (localRange (getUpdateRange ins del).1 (getUpdateRange ins del).2
          cfg.off) nbrsF pfuel
        (seedPhases cfg occ
          (localRange (getUpdateRange ins del).1 (getUpdateRange ins del).2
            cfg.off) nbrsF dfuel st ins del).1
        (seedPhases cfg occ
          (localRange (getUpdateRange ins del).1 (getUpdateRange ins del).2
            cfg.off) nbrsF dfuel st ins del).2 = some (st', []) := by
  set r := localRange (getUpdateRange ins del).1 (getUpdateRange ins del).2
    cfg.off with hr
  have hins : ∀ i ∈ ins, voxInRange r i = true := by
    intro i hi
    have hb := updFold_bounds (ins ++ del)
      (⟨UNDEFI, UNDEFI, UNDEFI⟩, ⟨-UNDEFI, -UNDEFI, -UNDEFI⟩) i
      (List.mem_append_left del hi)
    rw [← getUpdateRange_eq_updFold] at hb
    rw [hr]
    exact voxInRange_localRange _ _ _ i hoff.1 hoff.2.1 hoff.2.2
      hb.1.1 hb.1.2.1 hb.1.2.2 hb.2.1 hb.2.2.1 hb.2.2.2
  have hq := seedPhases_queue cfg occ r nbrsF dfuel st ins del hins
  obtain ⟨st', hdone⟩ := propLoop_total cfg r nbrsF
    (2 * sigmaSq r (seedPhases cfg occ r nbrsF dfuel st ins del).1 +
      (seedPhases cfg occ r nbrsF dfuel st ins del).2.length)
    (seedPhases cfg occ r nbrsF dfuel st ins del).1
    (seedPhases cfg occ r nbrsF dfuel st ins del).2 le_rfl hq
  exact ⟨_, st', hdone⟩

/-- C8, witness instance: the concrete one-insert cycle terminates with a
drained queue. -/
theorem c8_witness :
    ∃ pfuel st',
      propLoop c3cfg
        (localRange (getUpdateRange [c3A] []).1 (getUpdateRange [c3A] []).2
          c3cfg.off) neighborhood24 pfuel
        (seedPhases c3cfg []
          (localRange (getUpdateRange [c3A] []).1
            (getUpdateRange [c3A] []).2 c3cfg.off)
          neighborhood24 3 c3st [c3A] []).1
        (seedPhases c3cfg []
          (localRange (getUpdateRange [c3A] []).1
            (getUpdateRange [c3A] []).2 c3cfg.off)
          neighborhood24 3 c3st [c3A] []).2 = some (st', []) :=
  c8_propagation_terminates c3cfg [] neighborhood24 3 c3st [c3A] []
    (by decide)

end Voxblox
